import Mathlib

/-!
# Shallow embedding of the goa design compiler core

This file embeds, in Lean, the parts of the goa repository that the
verified claims are about:

* the dynamic type/coercion library (`design/types.go`: `Primitive.Load`,
  `Array.Load`, `Object.Load`, `Member.Load`, `IncompatibleValue`),
* the design validation pass (`design/validation.go`: the `Validate`
  methods of the definition structs),
* the DSL runner and finalization pass (`design/dsl/runner.go`:
  `RunDSL`, `executeDSL`, `finalizeType`, `finalizeMediaType`,
  `finalizeResource`).

Modelling conventions:

* Go `interface{}` values are embedded as the inductive `GoValue`.
  Go distinguishes the dynamic type of the boxed value, so integers carry
  their native width tag (`IntW`).  `time.Time` values are embedded as the
  RFC3339 rendering that `Format(time.RFC3339)` would produce, which is the
  only observation the code makes of them.  Go float values are carried as
  rationals (the embedded code never does float arithmetic).
* Functions that return `(interface{}, error)` are embedded as `LoadOut`;
  a Go runtime panic is the `panicked` constructor.
* Error messages built with `fmt.Sprintf` are embedded structurally
  (`ErrExtra`): the constructor records the data that the format string
  would interpolate.
* Go maps are embedded as association lists; Go map iteration order is
  not specified, the embedding fixes the list order as the iteration
  order.
* Library helpers from the Go standard library (`strconv.ParseBool`,
  `strconv.ParseInt`, `strconv.ParseFloat`, `encoding/json.Unmarshal`,
  `mime.ParseMediaType`) are given executable models that follow their
  documented behavior on the inputs the embedded code feeds them.
-/

set_option autoImplicit false

/-- Width tag of a native Go integer type boxed in an `interface{}`. -/
inductive IntW where
  | i | u | i8 | u8 | i16 | u16 | i32 | u32 | i64 | u64
deriving DecidableEq, Repr

/-- A dynamically typed Go value (`interface{}`), restricted to the dynamic
types the embedded code inspects. -/
inductive GoValue where
  | nil : GoValue
  | bool : Bool → GoValue
  | int : IntW → Int → GoValue
  | float64 : Rat → GoValue
  | float32 : Rat → GoValue
  | str : String → GoValue
  | time : String → GoValue
  | arr : List GoValue → GoValue
  | map : List (String × GoValue) → GoValue

mutual
/-- Structural embedding of the `extra` strings that `types.go` builds with
`fmt.Sprintf`: each constructor records the interpolated data. -/
inductive ErrExtra where
  | empty : ErrExtra
  | msg : String → ErrExtra
  | atIndex : Nat → GoError → ErrExtra
  | member : String → GoError → ErrExtra

/-- An error produced by the load/validation functions of `types.go`:
either an `IncompatibleValue{value, to, extra}` or a plain validation
error message. -/
inductive GoError where
  | incompatible : GoValue → String → ErrExtra → GoError
  | validation : String → GoError
end

/-- Result of a Go call returning `(interface{}, error)`; `panicked` embeds
a Go runtime panic. -/
inductive LoadOut where
  | panicked : String → LoadOut
  | failure : GoError → LoadOut
  | success : GoValue → LoadOut

/-- The `Kind` enumeration of `types.go`. -/
inductive Kind where
  | null | boolean | integer | number | string | array | object
deriving DecidableEq, Repr

/-- `Primitive.Name` for the primitive kinds (`types.go`).  The Go method
panics on the non-primitive kinds. -/
def primitiveName : Kind → Option String
  | .null => some "null"
  | .boolean => some "boolean"
  | .integer => some "integer"
  | .number => some "number"
  | .string => some "string"
  | _ => none

/-- Model of `strconv.ParseBool`: the exact set of accepted literals. -/
def parseBool (s : String) : Option Bool :=
  if s = "1" ∨ s = "t" ∨ s = "T" ∨ s = "TRUE" ∨ s = "true" ∨ s = "True" then some true
  else if s = "0" ∨ s = "f" ∨ s = "F" ∨ s = "FALSE" ∨ s = "false" ∨ s = "False" then some false
  else none

/-- Digits of a decimal literal, most significant first. -/
def digitsVal : List Char → Option Nat
  | [] => none
  | cs => cs.foldlM (fun acc c => if c.isDigit then some (acc * 10 + (c.toNat - 48)) else none) 0

/-- Model of `strconv.ParseInt(s, 10, 0)`: optional sign, decimal digits,
64-bit range check.  The Go error strings are "invalid syntax" and
"value out of range". -/
def parseInt10 (s : String) : Except String Int :=
  let core : List Char → Option Int := fun cs =>
    match cs with
    | '+' :: rest => (digitsVal rest).map Int.ofNat
    | '-' :: rest => (digitsVal rest).map (fun n => -(Int.ofNat n))
    | rest => (digitsVal rest).map Int.ofNat
  match core s.data with
  | none => .error "invalid syntax"
  | some n =>
      if n < -(2 ^ 63) ∨ 2 ^ 63 - 1 < n then .error "value out of range"
      else .ok n

/-- Model of `strconv.ParseFloat(s, 64)` on decimal literals: optional
sign, digits with optional fraction, optional decimal exponent.  The
value is kept exact as a rational. -/
def parseFloat (s : String) : Except String Rat :=
  let split : List Char → List Char × List Char := fun cs =>
    (cs.takeWhile (fun c => c ≠ 'e' ∧ c ≠ 'E'), cs.dropWhile (fun c => c ≠ 'e' ∧ c ≠ 'E'))
  let mantissa : List Char → Option Rat := fun cs =>
    let intPart := cs.takeWhile (fun c => c ≠ '.')
    let rest := cs.dropWhile (fun c => c ≠ '.')
    match rest with
    | [] => (digitsVal intPart).map (fun n => (n : Rat))
    | _ :: frac =>
        if intPart ++ frac = [] then none
        else (digitsVal (intPart ++ frac)).map (fun n => (n : Rat) / ((10 : Rat) ^ frac.length))
  let signed : List Char → Option Rat := fun cs =>
    match cs with
    | '+' :: rest => mantissa rest
    | '-' :: rest => (mantissa rest).map Neg.neg
    | rest => mantissa rest
  let expPart : List Char → Option Int := fun cs =>
    match cs with
    | [] => some 0
    | _ :: rest =>
        match rest with
        | '+' :: ds => (digitsVal ds).map Int.ofNat
        | '-' :: ds => (digitsVal ds).map (fun n => -(Int.ofNat n))
        | ds => (digitsVal ds).map Int.ofNat
  let (man, ex) := split s.data
  match signed man, expPart ex with
  | some m, some e => .ok (m * (10 : Rat) ^ e)
  | _, _ => .error "invalid syntax"

/-- `Primitive.Load` (`types.go`).  A `nil` value loads as `nil` with no
error.  The Boolean integer branch embeds the Go comparison
`value == 0` / `value == 1` of the boxed value against the untyped
constants `0` and `1`: the constants default to type `int`, so the
comparison succeeds only when the dynamic type is exactly `int`. -/
def primitiveLoad (k : Kind) (v : GoValue) : LoadOut :=
  match v with
  | .nil => .success .nil
  | _ =>
    let incompatible : ErrExtra → LoadOut := fun ex =>
      match primitiveName k with
      | some n => .failure (.incompatible v n ex)
      | none => .panicked "goa bug: unknown basic type"
    match k with
    | .boolean =>
        match v with
        | .bool _ => .success v
        | .str s =>
            match parseBool s with
            | some res => .success (.bool res)
            | none => incompatible (.msg "invalid syntax")
        | .int w n =>
            if w = .i ∧ n = 0 then .success (.bool false)
            else if w = .i ∧ n = 1 then .success (.bool true)
            else incompatible (.msg "integer value must be 0 or 1")
        | _ => incompatible .empty
    | .integer =>
        match v with
        | .int w n =>
            if w = .u ∨ w = .u64 then .success (.int .i ((n + 2 ^ 63) % 2 ^ 64 - 2 ^ 63))
            else .success (.int .i n)
        | .str s =>
            match parseInt10 s with
            | .ok res => .success (.int .i res)
            | .error e => incompatible (.msg e)
        | _ => incompatible .empty
    | .number =>
        match v with
        | .int _ n => .success (.float64 (n : Rat))
        | .float32 q => .success (.float64 q)
        | .float64 q => .success (.float64 q)
        | .str s =>
            match parseFloat s with
            | .ok res => .success (.float64 res)
            | .error e => incompatible (.msg e)
        | _ => incompatible .empty
    | .string =>
        match v with
        | .time t => .success (.str t)
        | .str _ => .success v
        | _ => incompatible .empty
    | _ => incompatible .empty

/-- The opening brace character (the object delimiter of JSON). -/
def lbrace : Char := Char.ofNat 123

/-- The closing brace character. -/
def rbrace : Char := Char.ofNat 125

/-- JSON insignificant whitespace. -/
def jsonWs (c : Char) : Bool := c = ' ' ∨ c = '\t' ∨ c = '\n' ∨ c = '\r'

/-- Drop leading JSON whitespace. -/
def skipWs : List Char → List Char
  | [] => []
  | c :: cs => if jsonWs c then skipWs cs else c :: cs

/-- Parse the remainder of a JSON string literal (the opening quote already
consumed).  Supports the escapes the embedded witnesses need. -/
def parseJsonString : List Char → Option (String × List Char)
  | [] => none
  | c :: cs =>
    if c = '"' then some ("", cs)
    else if c = '\\' then
      match cs with
      | [] => none
      | e :: cs2 =>
        let esc : Option Char :=
          if e = '"' then some '"'
          else if e = '\\' then some '\\'
          else if e = '/' then some '/'
          else if e = 'n' then some '\n'
          else if e = 't' then some '\t'
          else if e = 'r' then some '\r'
          else none
        match esc with
        | none => none
        | some ch =>
            match parseJsonString cs2 with
            | none => none
            | some (s, rest) => some (ch.toString ++ s, rest)
    else
      match parseJsonString cs with
      | none => none
      | some (s, rest) => some (c.toString ++ s, rest)

/-- Characters that may occur in a JSON number literal. -/
def jsonNumChar (c : Char) : Bool :=
  c.isDigit ∨ c = '-' ∨ c = '+' ∨ c = '.' ∨ c = 'e' ∨ c = 'E'

/-- Parse a JSON number literal to the exact rational it denotes
(`encoding/json` decodes every JSON number as a `float64`). -/
def parseJsonNumber (cs : List Char) : Option (Rat × List Char) :=
  let lit := cs.takeWhile jsonNumChar
  let rest := cs.dropWhile jsonNumChar
  if lit = [] then none
  else
    match parseFloat (String.mk lit) with
    | .ok q => some (q, rest)
    | .error _ => none

/-- Check that `pre` is a literal prefix of `cs` and drop it. -/
def expectChars (pre : List Char) (cs : List Char) : Option (List Char) :=
  match pre, cs with
  | [], rest => some rest
  | p :: ps, c :: rest => if c = p then expectChars ps rest else none
  | _ :: _, [] => none

mutual
/-- Model of the JSON value grammar accepted by `encoding/json.Unmarshal`
when decoding into `interface{}`: numbers decode as `float64`, objects as
`map[string]interface{}`, arrays as `[]interface{}`. -/
def parseJsonVal : Nat → List Char → Option (GoValue × List Char)
  | 0, _ => none
  | fuel + 1, cs =>
    match skipWs cs with
    | [] => none
    | c :: rest =>
      if c = '"' then
        match parseJsonString rest with
        | none => none
        | some (s, r) => some (.str s, r)
      else if c = 't' then
        (expectChars ['r', 'u', 'e'] rest).map (fun r => (.bool true, r))
      else if c = 'f' then
        (expectChars ['a', 'l', 's', 'e'] rest).map (fun r => (.bool false, r))
      else if c = 'n' then
        (expectChars ['u', 'l', 'l'] rest).map (fun r => (.nil, r))
      else if c = '[' then
        parseJsonArr fuel (skipWs rest) []
      else if c = lbrace then
        parseJsonObj fuel (skipWs rest) []
      else
        match parseJsonNumber (c :: rest) with
        | none => none
        | some (q, r) => some (.float64 q, r)

/-- Elements of a JSON array after `[`; `acc` holds parsed elements in
reverse. -/
def parseJsonArr : Nat → List Char → List GoValue → Option (GoValue × List Char)
  | 0, _, _ => none
  | _ + 1, [], _ => none
  | fuel + 1, c :: rest, acc =>
    if c = ']' ∧ acc.isEmpty then some (.arr [], rest)
    else
      match parseJsonVal fuel (c :: rest) with
      | none => none
      | some (v, r) =>
        match skipWs r with
        | ',' :: r2 => parseJsonArr fuel r2 (v :: acc)
        | d :: r2 => if d = ']' then some (.arr (v :: acc).reverse, r2) else none
        | [] => none

/-- Members of a JSON object after the opening brace; `acc` holds parsed
members in reverse. -/
def parseJsonObj : Nat → List Char → List (String × GoValue) → Option (GoValue × List Char)
  | 0, _, _ => none
  | _ + 1, [], _ => none
  | fuel + 1, c :: rest, acc =>
    if c = rbrace ∧ acc.isEmpty then some (.map [], rest)
    else if c = '"' then
      match parseJsonString rest with
      | none => none
      | some (k, r) =>
        match skipWs r with
        | ':' :: r2 =>
          match parseJsonVal fuel r2 with
          | none => none
          | some (v, r3) =>
            match skipWs r3 with
            | ',' :: r4 =>
                match skipWs r4 with
                | [] => none
                | r5 => parseJsonObj fuel r5 ((k, v) :: acc)
            | d :: r4 => if d = rbrace then some (.map ((k, v) :: acc).reverse, r4) else none
            | [] => none
        | _ => none
    else none
end

/-- Model of `json.Unmarshal([]byte(s), &arr)` for `arr []interface{}`:
succeeds on a JSON array (its elements) or JSON `null` (the nil slice,
embedded as the empty list); any other document is a decode error. -/
def jsonUnmarshalArr (s : String) : Option (List GoValue) :=
  match parseJsonVal (s.length + 2) s.data with
  | some (v, rest) =>
      if skipWs rest = [] then
        match v with
        | .arr xs => some xs
        | .nil => some []
        | _ => none
      else none
  | none => none

/-- Model of `json.Unmarshal([]byte(s), &m)` for
`m map[string]interface{}`: succeeds on a JSON object (its members) or
JSON `null` (the nil map, embedded as the empty list). -/
def jsonUnmarshalObj (s : String) : Option (List (String × GoValue)) :=
  match parseJsonVal (s.length + 2) s.data with
  | some (v, rest) =>
      if skipWs rest = [] then
        match v with
        | .map m => some m
        | .nil => some []
        | _ => none
      else none
  | none => none

/-- A member validation function of `types.go` (`type Validation func(name
string, val interface{}) error`), embedded as a pure function. -/
def Validation : Type := String → GoValue → Option GoError

mutual
/-- `DataType` of `types.go`: a primitive kind, `Array{ElemType DataType}`,
or `Object map[string]*Member` (as an association list). -/
inductive DataType where
  | primitive : Kind → DataType
  | array : DataType → DataType
  | object : List (String × Member) → DataType

/-- `Member` of `types.go`: member type, validations and optional default
value (`nil` default embedded as `GoValue.nil`).  The `Description` field
is never read by the embedded code and is omitted. -/
inductive Member where
  | mk : DataType → List Validation → GoValue → Member
end

/-- The `Type` field of a `Member`. -/
def Member.type : Member → DataType
  | .mk t _ _ => t

/-- The `Validations` field of a `Member`. -/
def Member.validations : Member → List Validation
  | .mk _ vs _ => vs

/-- The `DefaultValue` field of a `Member`. -/
def Member.defaultValue : Member → GoValue
  | .mk _ _ d => d

/-- First error among the validations, as run by `Member.Load`. -/
def firstValidationError (vs : List Validation) (name : String) (v : GoValue) : Option GoError :=
  match vs with
  | [] => none
  | f :: rest =>
    match f name v with
    | some e => some e
    | none => firstValidationError rest name v

/-- All validation errors in order, as collected by the inner validation
loop of `Object.Load` (its `continue` only skips to the next validation). -/
def allValidationErrors (vs : List Validation) (name : String) (v : GoValue) : List GoError :=
  match vs with
  | [] => []
  | f :: rest =>
    match f name v with
    | some e => e :: allValidationErrors rest name v
    | none => allValidationErrors rest name v

/-- Lookup in a Go map embedded as an association list; an absent key
yields the zero value `nil`, matching `val, _ := m[n]`. -/
def mapLookup (m : List (String × GoValue)) (n : String) : GoValue :=
  match m with
  | [] => .nil
  | (k, v) :: rest => if k = n then v else mapLookup rest n

/-- The Go test `val == nil` on an `interface{}` value. -/
def isNilGo : GoValue → Bool
  | .nil => true
  | _ => false

mutual
/-- `DataType.Load` dispatch: every `DataType` implements `Load`. -/
def dataTypeLoad : DataType → GoValue → LoadOut
  | .primitive k, v => primitiveLoad k v
  | .array e, v => arrayLoad e v
  | .object ms, v => objectLoad ms v
termination_by t _ => (sizeOf t, 0, 0)

/-- `Array.Load` (`types.go`).  `reflect.TypeOf(value).Kind()` dereferences
a nil `reflect.Type` when `value` is `nil`, a runtime panic.  A string is
JSON-decoded; a slice or array is walked directly; anything else is an
`IncompatibleValue`. -/
def arrayLoad (e : DataType) (v : GoValue) : LoadOut :=
  match v with
  | .nil => .panicked "runtime error: invalid memory address or nil pointer dereference"
  | .str s =>
      match jsonUnmarshalArr s with
      | none => .failure (.incompatible v "Array" (.msg "failed to decode JSON"))
      | some xs => loadElems e v xs 0 []
  | .arr xs => loadElems e v xs 0 []
  | _ => .failure (.incompatible v "Array" (.msg "value must be an array or a slice"))
termination_by (sizeOf e, 1, 0)

/-- The element loop of `Array.Load`: recursively load each element,
returning on the first failure an `IncompatibleValue` whose extra names
the failing index.  `acc` holds loaded elements in reverse. -/
def loadElems (e : DataType) (orig : GoValue) (xs : List GoValue) (i : Nat)
    (acc : List GoValue) : LoadOut :=
  match xs with
  | [] => .success (.arr acc.reverse)
  | x :: rest =>
    match dataTypeLoad e x with
    | .panicked m => .panicked m
    | .failure err => .failure (.incompatible orig "Array" (.atIndex i err))
    | .success ev => loadElems e orig rest (i + 1) (ev :: acc)
termination_by (sizeOf e, 0, xs.length + 1)

/-- `Object.Load` (`types.go`).  A string is JSON-decoded into a map; a
string-keyed map is walked directly; anything else is an
`IncompatibleValue`. -/
def objectLoad (ms : List (String × Member)) (v : GoValue) : LoadOut :=
  match v with
  | .str s =>
      match jsonUnmarshalObj s with
      | none => .failure (.incompatible v "Object" (.msg "string is not a JSON object"))
      | some m => loadMembers ms m v [] []
  | .map m => loadMembers ms m v [] []
  | _ => .failure (.incompatible v "Object" .empty)
termination_by (sizeOf ms, 1, 0)

/-- The member loop of `Object.Load`: each declared member is loaded from
the matching key, or its default substitutes when the key is absent (or
nil).  Per-member errors are collected in `errs` (in reverse); after the
loop the first collected error is returned, or the coerced map.  A load
failure skips the member (`continue`); after a successful load the
member validations are re-run and any errors collected. -/
def loadMembers (ms : List (String × Member)) (m : List (String × GoValue))
    (orig : GoValue) (coerced : List (String × GoValue)) (errs : List GoError) : LoadOut :=
  match ms with
  | [] =>
    match errs.reverse with
    | [] => .success (.map coerced.reverse)
    | e :: _ => .failure e
  | (n, mem) :: rest =>
    let val := mapLookup m n
    if isNilGo val then
      let val2 := if isNilGo mem.defaultValue then val else mem.defaultValue
      loadMembers rest m orig ((n, val2) :: coerced) errs
    else
      match memberLoad mem n val with
        | .panicked s => .panicked s
        | .failure e =>
            loadMembers rest m orig coerced (.incompatible orig "Object" (.member n e) :: errs)
        | .success val2 =>
            loadMembers rest m orig ((n, val2) :: coerced)
              ((allValidationErrors mem.validations n val2).reverse ++ errs)
termination_by (sizeOf ms, 0, 0)

/-- `Member.Load` (`types.go`): load through the member type, then run the
member validations, returning the first validation error. -/
def memberLoad (mem : Member) (name : String) (v : GoValue) : LoadOut :=
  match dataTypeLoad mem.type v with
  | .panicked m => .panicked m
  | .failure e => .failure e
  | .success res =>
    match firstValidationError mem.validations name res with
    | some e => .failure e
    | none => .success res
termination_by (sizeOf mem, 2, 0)
decreasing_by
  cases mem with
  | mk t vs d => simp [Prod.lex_def, Member.type]; omega
end

/-- Whether a load outcome is a Go panic. -/
def isPanicked : LoadOut → Bool
  | .panicked _ => true
  | _ => false

/-- The sequences `Array.Load` accepts: a native slice/array directly, or
a string through JSON decoding. -/
def arrElems : GoValue → Option (List GoValue)
  | .arr xs => some xs
  | .str s => jsonUnmarshalArr s
  | _ => none

/-- The extra attached to the `IncompatibleValue` that `Array.Load`
returns for a non-sequence input. -/
def arrMismatchExtra : GoValue → ErrExtra
  | .str _ => .msg "failed to decode JSON"
  | _ => .msg "value must be an array or a slice"

/-- Value produced by a successful element load (junk when the load does
not succeed). -/
def loadedValue (e : DataType) (x : GoValue) : GoValue :=
  match dataTypeLoad e x with
  | .success v => v
  | _ => .nil

/-- Index and error of the first element whose recursive load fails. -/
def firstElemFailure (e : DataType) : List GoValue → Nat → Option (Nat × GoError)
  | [], _ => none
  | x :: rest, i =>
    match dataTypeLoad e x with
    | .failure err => some (i, err)
    | _ => firstElemFailure e rest (i + 1)

theorem loadElems_eq (e : DataType) (orig : GoValue) (xs : List GoValue) (i : Nat)
    (acc : List GoValue) (hnp : ∀ x ∈ xs, isPanicked (dataTypeLoad e x) = false) :
    loadElems e orig xs i acc =
      match firstElemFailure e xs i with
      | some (j, err) => .failure (.incompatible orig "Array" (.atIndex j err))
      | none => .success (.arr (acc.reverse ++ xs.map (loadedValue e))) := by
  induction xs generalizing i acc with
  | nil => simp [loadElems, firstElemFailure]
  | cons x rest ih =>
    have hx := hnp x (by simp)
    have hrest : ∀ y ∈ rest, isPanicked (dataTypeLoad e y) = false := fun y hy =>
      hnp y (List.mem_cons_of_mem _ hy)
    rw [loadElems]
    cases hout : dataTypeLoad e x with
    | panicked m => rw [hout] at hx; simp [isPanicked] at hx
    | failure err => simp [firstElemFailure, hout]
    | success ev =>
        simp only [ih _ _ hrest, firstElemFailure, hout]
        cases firstElemFailure e rest (i + 1) with
        | none => simp [loadedValue, hout]
        | some p => rfl

/-- Claim C8 counterexample: `Array.Load` is not total — on a `nil` input
`reflect.TypeOf(value)` is the nil `reflect.Type` and calling `Kind()` on
it is a nil pointer dereference, so the call panics instead of returning
an `IncompatibleValue` error. -/
theorem arrayLoad_nil_panic_cex :
    arrayLoad (DataType.primitive Kind.integer) GoValue.nil =
      .panicked "runtime error: invalid memory address or nil pointer dereference" := by
  simp [arrayLoad]

/-- Claim C8 (amended): for every non-nil input, `Array.Load` loads a
slice, array, or JSON-array string elementwise, returning on the first
failing element an `IncompatibleValue` carrying the failing index, and
returns an `IncompatibleValue` (not a panic) on every other non-nil
input; panics arise only from the nil input and from recursive element
loads (excluded here by hypothesis). -/
theorem arrayLoad_amended (e : DataType) (v : GoValue) (h : v ≠ GoValue.nil)
    (hnp : ∀ x ∈ (arrElems v).getD [], isPanicked (dataTypeLoad e x) = false) :
    arrayLoad e v =
      match arrElems v with
      | none => .failure (.incompatible v "Array" (arrMismatchExtra v))
      | some xs =>
        match firstElemFailure e xs 0 with
        | some (i, err) => .failure (.incompatible v "Array" (.atIndex i err))
        | none => .success (.arr (xs.map (loadedValue e))) := by
  cases v with
  | nil => exact absurd rfl h
  | str s =>
      rw [arrayLoad]
      simp only [arrElems]
      cases hj : jsonUnmarshalArr s with
      | none => simp [arrMismatchExtra]
      | some xs =>
          have hnp' : ∀ x ∈ xs, isPanicked (dataTypeLoad e x) = false := by
            intro x hx
            apply hnp
            simp [arrElems, hj, hx]
          simp only [loadElems_eq e (GoValue.str s) xs 0 [] hnp']
          simp
  | arr xs =>
      have hnp' : ∀ x ∈ xs, isPanicked (dataTypeLoad e x) = false := by
        intro x hx
        apply hnp
        simp [arrElems, hx]
      rw [arrayLoad, loadElems_eq e _ xs 0 [] hnp']
      simp [arrElems]
  | bool b => simp [arrayLoad, arrElems, arrMismatchExtra]
  | int w n => simp [arrayLoad, arrElems, arrMismatchExtra]
  | float64 q => simp [arrayLoad, arrElems, arrMismatchExtra]
  | float32 q => simp [arrayLoad, arrElems, arrMismatchExtra]
  | time t => simp [arrayLoad, arrElems, arrMismatchExtra]
  | map m => simp [arrayLoad, arrElems, arrMismatchExtra]

/-- Witness for the amended C8 theorem at a concrete input: loading
`[interface{}("abc")]` as an array of integers fails at index 0 with the
element error wrapped in positional context. -/
theorem arrayLoad_amended_witness :
    arrayLoad (DataType.primitive Kind.integer) (GoValue.arr [GoValue.str "abc"]) =
      .failure (.incompatible (GoValue.arr [GoValue.str "abc"]) "Array"
        (.atIndex 0 (.incompatible (GoValue.str "abc") "integer" (.msg "invalid syntax")))) := by
  have h := arrayLoad_amended (DataType.primitive Kind.integer)
    (GoValue.arr [GoValue.str "abc"]) (by simp)
    (by
      intro x hx
      simp only [arrElems, Option.getD, List.mem_singleton] at hx
      subst hx
      simp [dataTypeLoad, primitiveLoad, primitiveName, parseInt10, digitsVal, isPanicked])
  rw [h]
  simp [arrElems, firstElemFailure, dataTypeLoad, primitiveLoad, primitiveName, parseInt10,
    digitsVal]

/-- Claim C7: evaluation of `Primitive.Load` at the failing input.  The
Boolean branch rejects the boxed `int8(1)` — the Go comparison
`value == 1` boxes the untyped constant as an `int`, so only dynamic
type `int` can match — while the same numeric value boxed as `int`
loads as `true`.  The claim (any native integer width) therefore does
not hold on the code. -/
theorem primitiveLoad_boolean_width_bug :
    primitiveLoad Kind.boolean (GoValue.int IntW.i8 1) =
      .failure (.incompatible (GoValue.int IntW.i8 1) "boolean"
        (.msg "integer value must be 0 or 1")) ∧
    primitiveLoad Kind.boolean (GoValue.int IntW.i 1) = .success (.bool true) :=
  ⟨rfl, rfl⟩

/-- The sources `Object.Load` accepts: a string-keyed map directly, or a
string through JSON decoding. -/
def objSource : GoValue → Option (List (String × GoValue))
  | .str s => jsonUnmarshalObj s
  | .map m => some m
  | _ => none

/-- Outcome of loading one declared member, in isolation: an absent or nil
key substitutes the default value (or stays nil); otherwise the member
load runs and a failure is wrapped with the member name. -/
def memberOutcome (m : List (String × GoValue)) (orig : GoValue) (n : String)
    (mem : Member) : LoadOut :=
  let val := mapLookup m n
  if isNilGo val then
    .success (if isNilGo mem.defaultValue then val else mem.defaultValue)
  else
    match memberLoad mem n val with
    | .panicked s => .panicked s
    | .failure e => .failure (.incompatible orig "Object" (.member n e))
    | .success v2 => .success v2

/-- Value of a successfully loaded member (junk otherwise). -/
def memberValue (m : List (String × GoValue)) (orig : GoValue) (n : String)
    (mem : Member) : GoValue :=
  match memberOutcome m orig n mem with
  | .success v => v
  | _ => .nil

/-- All per-member errors in declaration order. -/
def memberErrsList (m : List (String × GoValue)) (orig : GoValue) :
    List (String × Member) → List GoError
  | [] => []
  | (n, mem) :: rest =>
    match memberOutcome m orig n mem with
    | .failure e => e :: memberErrsList m orig rest
    | _ => memberErrsList m orig rest

/-- The first per-member error encountered. -/
def firstMemberError (m : List (String × GoValue)) (orig : GoValue) :
    List (String × Member) → Option GoError
  | [] => none
  | (n, mem) :: rest =>
    match memberOutcome m orig n mem with
    | .failure e => some e
    | _ => firstMemberError m orig rest

theorem firstMemberError_eq_head (m : List (String × GoValue)) (orig : GoValue)
    (ms : List (String × Member)) :
    firstMemberError m orig ms = (memberErrsList m orig ms).head? := by
  induction ms with
  | nil => rfl
  | cons p rest ih =>
      obtain ⟨n, mem⟩ := p
      rw [firstMemberError, memberErrsList]
      cases memberOutcome m orig n mem <;> simp [ih]

theorem allValidationErrors_nil_of_first_none (vs : List Validation) (n : String)
    (v : GoValue) (h : firstValidationError vs n v = none) :
    allValidationErrors vs n v = [] := by
  induction vs with
  | nil => rfl
  | cons f rest ih =>
      rw [firstValidationError] at h
      rw [allValidationErrors]
      cases hf : f n v with
      | none => rw [hf] at h; exact ih h
      | some e => rw [hf] at h; exact absurd h (by simp)

theorem memberLoad_success_validations (mem : Member) (n : String) (v v2 : GoValue)
    (h : memberLoad mem n v = .success v2) :
    firstValidationError mem.validations n v2 = none := by
  rw [memberLoad] at h
  cases hd : dataTypeLoad mem.type v with
  | panicked m => simp only [hd] at h; exact absurd h (by simp)
  | failure e => simp only [hd] at h; exact absurd h (by simp)
  | success res =>
      simp only [hd] at h
      cases hf : firstValidationError mem.validations n res with
      | some e => simp only [hf] at h; exact absurd h (by simp)
      | none =>
          simp only [hf] at h
          cases h
          exact hf


theorem loadMembers_eq (ms : List (String × Member)) (m : List (String × GoValue))
    (orig : GoValue) (coerced : List (String × GoValue)) (errs : List GoError)
    (hnp : ∀ p ∈ ms, isPanicked (memberOutcome m orig p.1 p.2) = false) :
    loadMembers ms m orig coerced errs =
      match errs.reverse ++ memberErrsList m orig ms with
      | [] => .success (.map (coerced.reverse ++ ms.map (fun p => (p.1, memberValue m orig p.1 p.2))))
      | e :: _ => .failure e := by
  induction ms generalizing coerced errs with
  | nil =>
      rw [loadMembers, memberErrsList]
      cases h : errs.reverse with
      | nil => simp
      | cons e t => simp
  | cons p rest ih =>
      obtain ⟨n, mem⟩ := p
      have hp := hnp (n, mem) (by simp)
      have hrest : ∀ q ∈ rest, isPanicked (memberOutcome m orig q.1 q.2) = false := fun q hq =>
        hnp q (List.mem_cons_of_mem _ hq)
      rw [loadMembers]
      cases hv : isNilGo (mapLookup m n) with
      | true =>
          have hout : memberOutcome m orig n mem =
              .success (if isNilGo mem.defaultValue then mapLookup m n else mem.defaultValue) := by
            rw [memberOutcome]
            simp [hv]
          have hval : memberValue m orig n mem =
              (if isNilGo mem.defaultValue then mapLookup m n else mem.defaultValue) := by
            rw [memberValue, hout]
          rw [memberErrsList, hout]
          simp only [hv, if_true, ih _ _ hrest]
          cases h : errs.reverse ++ memberErrsList m orig rest with
          | nil => simp [h, hval]
          | cons e t => simp [h]
      | false =>
          have hout : memberOutcome m orig n mem =
              (match memberLoad mem n (mapLookup m n) with
                | .panicked s => .panicked s
                | .failure e => .failure (.incompatible orig "Object" (.member n e))
                | .success v2 => .success v2) := by
            rw [memberOutcome]
            simp [hv]
          simp only [hv, if_false, Bool.false_eq_true]
          cases hml : memberLoad mem n (mapLookup m n) with
          | panicked s =>
              rw [hout, hml] at hp
              simp [isPanicked] at hp
          | failure e =>
              simp only [ih _ _ hrest, memberErrsList, hout, hml, List.reverse_cons,
                List.append_assoc, List.singleton_append]
              cases errs.reverse with
              | nil => simp
              | cons a t => simp
          | success val2 =>
              have hvz : allValidationErrors mem.validations n val2 = [] :=
                allValidationErrors_nil_of_first_none _ _ _
                  (memberLoad_success_validations mem n (mapLookup m n) val2 hml)
              have hval : memberValue m orig n mem = val2 := by
                rw [memberValue, hout, hml]
              simp only [ih _ _ hrest, hvz, List.reverse_nil, List.nil_append,
                memberErrsList, hout, hml]
              cases h : errs.reverse ++ memberErrsList m orig rest with
              | nil => simp [h, hval]
              | cons e t => simp [h]

/-- Claim C2: for every declared object type and every input that is a
string-keyed map or a JSON object literal string, `Object.Load` loads
each declared member from the matching key (or substitutes the member
default when the key is absent), and when one or more members fail to
load or validate it returns nil together with exactly the first
per-member error encountered — later errors are dropped, not
aggregated. -/
theorem objectLoad_first_error (ms : List (String × Member)) (v : GoValue)
    (m : List (String × GoValue)) (hsrc : objSource v = some m)
    (hnp : ∀ p ∈ ms, isPanicked (memberOutcome m v p.1 p.2) = false) :
    objectLoad ms v =
      match firstMemberError m v ms with
      | some e => .failure e
      | none => .success (.map (ms.map (fun p => (p.1, memberValue m v p.1 p.2)))) := by
  have key := loadMembers_eq ms m v [] [] hnp
  simp only [List.reverse_nil, List.nil_append] at key
  have main : loadMembers ms m v [] [] =
      match firstMemberError m v ms with
      | some e => .failure e
      | none => .success (.map (ms.map (fun p => (p.1, memberValue m v p.1 p.2)))) := by
    rw [key, firstMemberError_eq_head m v ms]
    cases memberErrsList m v ms with
    | nil => simp
    | cons e t => simp
  cases v with
  | str s =>
      rw [objectLoad]
      simp only [objSource] at hsrc
      rw [hsrc]
      exact main
  | map m0 =>
      simp only [objSource, Option.some.injEq] at hsrc
      subst hsrc
      rw [objectLoad]
      exact main
  | nil => simp [objSource] at hsrc
  | bool b => simp [objSource] at hsrc
  | int w n => simp [objSource] at hsrc
  | float64 q => simp [objSource] at hsrc
  | float32 q => simp [objSource] at hsrc
  | time t => simp [objSource] at hsrc
  | arr xs => simp [objSource] at hsrc

/-- Witness for C2 at a concrete input: a one-member object loaded from a
JSON object literal string whose member value cannot coerce; the result
is nil plus the first (and only) member error. -/
theorem objectLoad_first_error_witness :
    objectLoad [("a", Member.mk (DataType.primitive Kind.integer) [] GoValue.nil)]
        (GoValue.str "\x7b\"a\": \"x\"\x7d") =
      .failure (.incompatible (GoValue.str "\x7b\"a\": \"x\"\x7d") "Object"
        (.member "a" (.incompatible (GoValue.str "x") "integer" (.msg "invalid syntax")))) := by
  have h := objectLoad_first_error
    [("a", Member.mk (DataType.primitive Kind.integer) [] GoValue.nil)]
    (GoValue.str "\x7b\"a\": \"x\"\x7d") [("a", GoValue.str "x")]
    (by rfl)
    (by
      intro p hp
      simp only [List.mem_singleton] at hp
      subst hp
      simp [memberOutcome, mapLookup, isNilGo, memberLoad, dataTypeLoad, primitiveLoad,
        primitiveName, parseInt10, digitsVal, Member.type, Member.validations,
        firstValidationError, isPanicked])
  rw [h]
  simp [firstMemberError, memberOutcome, mapLookup, isNilGo, memberLoad, dataTypeLoad,
    primitiveLoad, primitiveName, parseInt10, digitsVal, Member.type, Member.validations,
    firstValidationError]

/-- Primitive kinds of the `design` package definitions
(`api_definition.go` era). -/
inductive MKind where
  | null | boolean | integer | number | string
deriving DecidableEq, Repr

/-- A `ValidationDefinition` of the design package.  `Validate` only
inspects `*RequiredValidationDefinition`; every other implementation is
opaque to it. -/
inductive MValidation where
  | required (names : List String)
  | other (tag : String)

mutual
/-- `DataType` of the design definitions: a primitive, `Array` (element
attribute), `Object` (named member attributes) or a media type.  A media
type used as an attribute type is embedded by the two observations
`Validate` makes of it: its identifier and its view names. -/
inductive MDataType where
  | primitive : MKind → MDataType
  | array : MAttribute → MDataType
  | object : List (String × MAttribute) → MDataType
  | media : String → List String → MDataType

/-- `AttributeDefinition`: type (a nil Go interface as `none`), ordered
validations, and the `View` field. -/
inductive MAttribute where
  | mk : Option MDataType → List MValidation → String → MAttribute
end

/-- The `Type` field of an attribute. -/
def MAttribute.type : MAttribute → Option MDataType
  | .mk t _ _ => t

/-- The `Validations` field of an attribute. -/
def MAttribute.validations : MAttribute → List MValidation
  | .mk _ vs _ => vs

/-- The `View` field of an attribute. -/
def MAttribute.view : MAttribute → String
  | .mk _ _ v => v

/-- `MediaTypeDefinition`: name, identifier, wrapped type, views, the
embedded attribute definition used by `finalizeMediaType`, and whether a
base type is declared (only its nil-ness is ever read). -/
structure MMediaType where
  typeName : String
  identifier : String
  type : Option MDataType
  views : List String
  attr : Option MAttribute
  hasBaseType : Bool

/-- `RouteDefinition`: HTTP verb and path. -/
structure DRoute where
  verb : String
  path : String
deriving DecidableEq

/-- `ResponseDefinition`: the fields read by validation and merged by
finalization.  The Go zero values (`0`, `""`, empty map) are the "unset"
states the spec-modelled `Merge` fills. -/
structure DResponse where
  name : String
  status : Int
  description : String
  mediaType : String
  headers : List (String × String)
deriving DecidableEq

/-- `ActionDefinition`: the fields read by `Validate` and by
`finalizeResource`. -/
structure DAction where
  name : String
  routes : List DRoute
  params : Option MAttribute
  payload : Option MAttribute
  responses : List (String × DResponse)

/-- `UserTypeDefinition`: name, embedded attribute, base-type presence. -/
structure DUserType where
  typeName : String
  attr : Option MAttribute
  hasBaseType : Bool

/-- `ResourceDefinition`: the fields read by `Validate` and
`finalizeResource`. -/
structure DResource where
  name : String
  parentName : String
  canonicalAction : String
  basePath : String
  baseParams : Option MAttribute
  mediaType : String
  actions : List (String × DAction)
  responses : List (String × DResponse)

/-- The global `Design` root (`APIDefinition` with its registries). -/
structure DDesign where
  resources : List (String × DResource)
  mediaTypes : List (String × MMediaType)
  types : List (String × DUserType)
  responses : List (String × DResponse)
  defaultResponses : List (String × DResponse)

/-- Association-list lookup for embedded Go maps. -/
def lookupA {α : Type} (l : List (String × α)) (n : String) : Option α :=
  match l with
  | [] => none
  | (k, v) :: rest => if k = n then some v else lookupA rest n

/-- Errors of the validation pass, embedded structurally: each
constructor records what the corresponding `fmt.Errorf` in
`validation.go` interpolates. -/
inductive VErr where
  | resourceErr (name : String) (inner : VErr)
  | apiUnknownParent (resName parentName : String)
  | emptyResourceName
  | actionErr (name : String) (inner : VErr)
  | unknownCanonical (name : String)
  | baseParamsNotObject
  | baseParamsCountMismatch (vars : List String) (count : Nat)
  | baseParamsVarMismatch (v basePath : String)
  | baseParamsUnused
  | parentNotFound (parentName : String)
  | emptyActionName
  | noRoute (name : String)
  | dupStatus (status : Int)
  | invalidResponseDef (inner : VErr)
  | invalidResponse (status : Int) (inner : VErr)
  | paramsNotObject (actionName : String)
  | paramNoName (actionName : String)
  | paramTypeNil (param actionName : String)
  | paramObject (param actionName : String)
  | invalidParam (param actionName : String) (inner : VErr)
  | invalidPayload (actionName : String) (inner : VErr)
  | requiredNonObject
  | requiredMissing (name : String)
  | respNoStatus
  | mtNoName
  | mtBadIdentifier
  | mtViewNotMedia (att identifier : String)
  | mtUnknownView (att identifier view : String)
deriving DecidableEq

/-- The object members of a type, when it is an `Object`
(`DataType.ToObject` restricted to the shapes `Validate` feeds it). -/
def objFields : Option MDataType → Option (List (String × MAttribute))
  | some (.object fs) => some fs
  | _ => none

/-- Split a character list at every occurrence of `c` (the semantics of
`strings.Split`). -/
def splitChar (c : Char) : List Char → List (List Char)
  | [] => [[]]
  | x :: xs =>
      let r := splitChar c xs
      if x = c then [] :: r
      else
        match r with
        | [] => [[x]]
        | s :: rest => (x :: s) :: rest

/-- Model of `mime.ParseMediaType` validity on an identifier: a
`type/subtype` pair of non-empty token characters. -/
def parseMediaTypeOk (s : String) : Bool :=
  match splitChar '/' s.data with
  | [t, sub] =>
      !t.isEmpty && !sub.isEmpty &&
        (t ++ sub).all (fun c => c.isAlphanum || c == '.' || c == '-' || c == '+')
  | _ => false

/-- The view check loop of `MediaTypeDefinition.Validate`: an attribute
with a non-empty `View` must have a media type as its type, and the view
must exist on that media type. -/
def mtFieldsCheck (ident : String) : List (String × MAttribute) → Option VErr
  | [] => none
  | (n, att) :: rest =>
      if att.view = "" then mtFieldsCheck ident rest
      else
        match att.type with
        | some (.media _ views) =>
            if views.contains att.view then mtFieldsCheck ident rest
            else some (.mtUnknownView n ident att.view)
        | _ => some (.mtViewNotMedia n ident)

/-- `MediaTypeDefinition.Validate` (`validation.go`).  Note that on
success it writes two fields of the receiver: an empty `Identifier`
becomes `"plain/text"` and a nil `Type` becomes `String` (the latter
carries a `TBD move this to somewhere else than validation code`
comment in the source); the embedding returns the updated media type
next to the verdict. -/
def mtValidate (m : MMediaType) : MMediaType × Option VErr :=
  if m.typeName = "" then (m, some .mtNoName)
  else if m.identifier ≠ "" ∧ ¬ parseMediaTypeOk m.identifier then (m, some .mtBadIdentifier)
  else
    let m1 := if m.identifier = "" then { m with identifier := "plain/text" } else m
    let m2 :=
      match m1.type with
      | none => { m1 with type := some (.primitive .string) }
      | some _ => m1
    match objFields m2.type with
    | none => (m2, none)
    | some fs => (m2, mtFieldsCheck m2.identifier fs)

/-- First name of `names` that is not a member of the object fields
(the inner loop of the `Required` check). -/
def firstMissingName (fs : List (String × MAttribute)) : List String → Option String
  | [] => none
  | n :: ns =>
      if fs.any (fun p => p.1 = n) then firstMissingName fs ns
      else some n

/-- The validations loop of `AttributeDefinition.Validate`: only
`Required` validations are inspected; a `Required` on a non-object is an
error, and each required name must exist among the object fields. -/
def requiredCheck (fieldsOpt : Option (List (String × MAttribute))) :
    List MValidation → Option VErr
  | [] => none
  | .required names :: rest =>
      match fieldsOpt with
      | none => some .requiredNonObject
      | some fs =>
          match firstMissingName fs names with
          | some n => some (.requiredMissing n)
          | none => requiredCheck fieldsOpt rest
  | .other _ :: rest => requiredCheck fieldsOpt rest

mutual
/-- `AttributeDefinition.Validate` (`validation.go`): check the
`Required` validations against the object fields, then recurse into
every object member attribute. -/
def attValidate : MAttribute → Option VErr
  | .mk t vs _ =>
      match requiredCheck (objFields t) vs with
      | some e => some e
      | none =>
          match t with
          | some (.object fs) => fieldsValidate fs
          | _ => none
termination_by a => (sizeOf a, 1)
decreasing_by
  simp [Prod.lex_def]
  omega

/-- The member recursion of `AttributeDefinition.Validate`, returning the
first member error. -/
def fieldsValidate : List (String × MAttribute) → Option VErr
  | [] => none
  | (_, att) :: rest =>
      match attValidate att with
      | some e => some e
      | none => fieldsValidate rest
termination_by fs => (sizeOf fs, 0)
end

/-- Kind test used by `ValidateParams`: `p.Type.Kind() == ObjectKind`.
A media type's kind is `ObjectKind` (it wraps an object). -/
def isObjectKind : MDataType → Bool
  | .object _ => true
  | .media _ _ => true
  | _ => false

/-- The parameter loop of `ActionDefinition.ValidateParams`.  (The Go
code also rejects a nil `*AttributeDefinition` map value; the embedding
represents members as values, so that branch has no counterpart.) -/
def paramsLoop (actionName : String) : List (String × MAttribute) → Option VErr
  | [] => none
  | (n, p) :: rest =>
      if n = "" then some (.paramNoName actionName)
      else
        match p.type with
        | none => some (.paramTypeNil n actionName)
        | some t =>
            if isObjectKind t then some (.paramObject n actionName)
            else
              match attValidate p with
              | some e => some (.invalidParam n actionName e)
              | none => paramsLoop actionName rest

/-- `ActionDefinition.ValidateParams` (`validation.go`). -/
def paramsValidate (a : DAction) : Option VErr :=
  match a.params with
  | none => none
  | some p =>
      match p.type with
      | some (.object fields) => paramsLoop a.name fields
      | _ => some (.paramsNotObject a.name)

/-- Replace a media type in the design registry (the Go code mutates the
map entry through the pointer held by `Design.MediaTypes`). -/
def updateMT (d : DDesign) (name : String) (mt : MMediaType) : DDesign :=
  { d with mediaTypes := d.mediaTypes.map (fun p => if p.1 = name then (p.1, mt) else p) }

/-- `ResponseDefinition.Validate` (`validation.go`): the status must be
set, and the referenced media type (when registered) must validate —
which may write its default identifier/type back into the registry. -/
def responseValidate (d : DDesign) (r : DResponse) : DDesign × Option VErr :=
  if r.status = 0 then (d, some .respNoStatus)
  else if r.mediaType ≠ "" then
    match lookupA d.mediaTypes r.mediaType with
    | some mt =>
        let (mt2, err) := mtValidate mt
        (updateMT d r.mediaType mt2, err)
    | none => (d, none)
  else (d, none)

/-- The response loop of `ActionDefinition.Validate`: for each response,
first scan all responses for another one with the same status, then
validate the response itself, wrapping its error with the status. -/
def validateResponses (all : List (String × DResponse)) :
    DDesign → List (String × DResponse) → DDesign × Option VErr
  | d, [] => (d, none)
  | d, (i, r) :: rest =>
      if all.any (fun q => if q.1 ≠ i ∧ q.2.status = r.status then true else false) then
        (d, some (.dupStatus r.status))
      else
        match responseValidate d r with
        | (d2, some e) =>
            if r.status = 0 then (d2, some (.invalidResponseDef e))
            else (d2, some (.invalidResponse r.status e))
        | (d2, none) => validateResponses all d2 rest

/-- `ActionDefinition.Validate` (`validation.go`): name present, at least
one route, responses pairwise-distinct statuses and individually valid,
then parameters, then payload. -/
def actionValidate (d : DDesign) (a : DAction) : DDesign × Option VErr :=
  if a.name = "" then (d, some .emptyActionName)
  else if a.routes.isEmpty then (d, some (.noRoute a.name))
  else
    match validateResponses a.responses d a.responses with
    | (d2, some e) => (d2, some e)
    | (d2, none) =>
        match paramsValidate a with
        | some e => (d2, some e)
        | none =>
            match a.payload with
            | none => (d2, none)
            | some p =>
                match attValidate p with
                | some e => (d2, some (.invalidPayload a.name e))
                | none => (d2, none)

/-- Wildcard names of a path, in order.  Modelled from the spec: a
wildcard is a `:name` path segment (e.g. `/accounts/:accountID/bottles/:id`
has wildcards `accountID` and `id`); `ExtractWildcards` itself is not
under the provided sources. -/
def extractWildcards (path : String) : List String :=
  (splitChar '/' path.data).filterMap
    (fun seg =>
      match seg with
      | ':' :: rest => if rest.isEmpty then none else some (String.mk rest)
      | _ => none)

/-- Modelled from the spec: `ParamsRegex` is not under the provided
sources; each `:name` wildcard of a base path yields one match whose
submatch list is `[":name", "name"]`. -/
def paramsRegexFind (path : String) : List (List String) :=
  (extractWildcards path).map (fun n => [":" ++ n, n])

/-- The wildcard loop of the BaseParams check. -/
def baseVarsLoop (baseParams : List (String × MAttribute)) (basePath : String) :
    List String → Option VErr
  | [] => none
  | v :: rest =>
      if baseParams.any (fun p => p.1 = v) then baseVarsLoop baseParams basePath rest
      else some (.baseParamsVarMismatch v basePath)

/-- The BaseParams section of `ResourceDefinition.Validate`, a literal
translation: note it reads `vs[1]`, the submatches of the *second*
wildcard match. -/
def baseParamsValidate (r : DResource) : Option VErr :=
  match r.baseParams with
  | none => none
  | some bp =>
      match bp.type with
      | some (.object baseParams) =>
          let vs := paramsRegexFind r.basePath
          if 1 < vs.length then
            let vars := vs.getD 1 []
            if vars.length ≠ baseParams.length then
              some (.baseParamsCountMismatch vars baseParams.length)
            else baseVarsLoop baseParams r.basePath vars
          else if 0 < baseParams.length then some .baseParamsUnused
          else none
      | _ => some .baseParamsNotObject

/-- The action loop of `ResourceDefinition.Validate`: record whether the
canonical action was seen, and validate each action, wrapping errors
with the action name. -/
def actionsValidate (canonical : String) :
    DDesign → List (String × DAction) → Bool → DDesign × Bool × Option VErr
  | d, [], found => (d, found, none)
  | d, (_, a) :: rest, found =>
      let found2 := found || (a.name == canonical)
      match actionValidate d a with
      | (d2, some e) => (d2, found2, some (.actionErr a.name e))
      | (d2, none) => actionsValidate canonical d2 rest found2

/-- `ResourceDefinition.Validate` (`validation.go`). -/
def resourceValidate (d : DDesign) (r : DResource) : DDesign × Option VErr :=
  if r.name = "" then (d, some .emptyResourceName)
  else
    match actionsValidate r.canonicalAction d r.actions false with
    | (d2, _, some e) => (d2, some e)
    | (d2, found, none) =>
        if r.canonicalAction ≠ "" ∧ found = false then
          (d2, some (.unknownCanonical r.canonicalAction))
        else
          match baseParamsValidate r with
          | some e => (d2, some e)
          | none =>
              if r.parentName ≠ "" ∧ (lookupA d2.resources r.parentName).isNone then
                (d2, some (.parentNotFound r.parentName))
              else if r.mediaType ≠ "" then
                match lookupA d2.mediaTypes r.mediaType with
                | some mt =>
                    let (mt2, err) := mtValidate mt
                    (updateMT d2 r.mediaType mt2, err)
                | none => (d2, none)
              else (d2, none)

/-- The resource loop of `APIDefinition.Validate`: validate each
resource (wrapping errors with the resource name) and check that its
parent name resolves. -/
def resourcesValidate : DDesign → List (String × DResource) → DDesign × Option VErr
  | d, [] => (d, none)
  | d, (_, r) :: rest =>
      match resourceValidate d r with
      | (d2, some e) => (d2, some (.resourceErr r.name e))
      | (d2, none) =>
          if r.parentName = "" then resourcesValidate d2 rest
          else if (lookupA d2.resources r.parentName).isSome then resourcesValidate d2 rest
          else (d2, some (.apiUnknownParent r.name r.parentName))

/-- `APIDefinition.Validate` (`validation.go`), the `Design.Validate()`
entry point called by `RunDSL`. -/
def apiValidate (d : DDesign) : DDesign × Option VErr :=
  resourcesValidate d d.resources

/-- Claim C1: contrary to the spec's frame condition,
`MediaTypeDefinition.Validate` does not leave the media type unchanged:
on a media type with a name, an empty identifier and a nil type it
succeeds (no error) yet writes `Identifier = "plain/text"` and
`Type = String` — mutation the spec reserves to Finalize, and which the
code itself marks `TBD move this to somewhere else than validation
code`. -/
theorem mtValidate_mutates :
    mtValidate (MMediaType.mk "A" "" none [] none false) =
      (MMediaType.mk "A" "plain/text" (some (.primitive .string)) [] none false, none) ∧
    (MMediaType.mk "A" "" none [] none false).identifier ≠ "plain/text" := by
  constructor
  · rfl
  · decide

/-- Claim C3 counterexample: an action with two distinct responses of
equal status 200 but no route fails `Validate` with the no-route error,
not with a duplicate-status error — the route check preempts the
duplicate scan. -/
theorem actionValidate_dup_preempted_cex :
    (actionValidate (DDesign.mk [] [] [] [] [])
        (DAction.mk "a" [] none none
          [("r1", DResponse.mk "r1" 200 "" "" []), ("r2", DResponse.mk "r2" 200 "" "" [])])).2 =
      some (.noRoute "a") ∧
    (actionValidate (DDesign.mk [] [] [] [] [])
        (DAction.mk "a" [] none none
          [("r1", DResponse.mk "r1" 200 "" "" []), ("r2", DResponse.mk "r2" 200 "" "" [])])).2 ≠
      some (.dupStatus 200) := by
  constructor
  · rfl
  · decide

theorem responseValidate_ok (d : DDesign) (r : DResponse) (h0 : r.status ≠ 0)
    (hmt : r.mediaType = "") : responseValidate d r = (d, none) := by
  rw [responseValidate]
  simp [h0, hmt]

theorem validateResponses_dup (all : List (String × DResponse)) (d : DDesign)
    (rs : List (String × DResponse))
    (hok : ∀ p ∈ rs, p.2.status ≠ 0 ∧ p.2.mediaType = "")
    (hdup : ∃ p ∈ rs, ∃ q ∈ all, q.1 ≠ p.1 ∧ q.2.status = p.2.status) :
    ∃ s, (validateResponses all d rs).2 = some (.dupStatus s) := by
  induction rs generalizing d with
  | nil => obtain ⟨p, hp, _⟩ := hdup; simp at hp
  | cons ir rest ih =>
      obtain ⟨i, r⟩ := ir
      rw [validateResponses]
      by_cases hany :
          all.any (fun q => if q.1 ≠ i ∧ q.2.status = r.status then true else false) = true
      · rw [if_pos hany]
        exact ⟨r.status, rfl⟩
      · rw [if_neg hany]
        have hds := hok (i, r) (by simp)
        rw [responseValidate_ok d r hds.1 hds.2]
        apply ih
        · intro p hp
          exact hok p (List.mem_cons_of_mem _ hp)
        · obtain ⟨p, hp, q, hq, hne, hst⟩ := hdup
          rcases List.mem_cons.mp hp with hhd | htl
          · exfalso
            apply hany
            rw [List.any_eq_true]
            refine ⟨q, hq, ?_⟩
            subst hhd
            have hne' : q.1 ≠ i := hne
            simp [hne', hst]
          · exact ⟨p, htl, q, hq, hne, hst⟩

theorem validateResponses_no_dup (all : List (String × DResponse)) (d : DDesign)
    (rs : List (String × DResponse)) (hsub : ∀ p ∈ rs, p ∈ all)
    (hdist : ∀ p ∈ all, ∀ q ∈ all, p.1 ≠ q.1 → p.2.status ≠ q.2.status) :
    ∀ s, (validateResponses all d rs).2 ≠ some (.dupStatus s) := by
  induction rs generalizing d with
  | nil => intro s; rw [validateResponses]; simp
  | cons ir rest ih =>
      obtain ⟨i, r⟩ := ir
      intro s
      rw [validateResponses]
      have hany :
          all.any (fun q => if q.1 ≠ i ∧ q.2.status = r.status then true else false) = false := by
        rw [List.any_eq_false]
        intro q hq
        by_cases hc : q.1 ≠ i ∧ q.2.status = r.status
        · exact absurd hc.2.symm (hdist (i, r) (hsub (i, r) (by simp)) q hq (fun he => hc.1 he.symm))
        · simp [if_neg hc]
      rw [hany]
      simp only [Bool.false_eq_true, if_false]
      cases hrv : responseValidate d r with
      | mk d2 err =>
          cases err with
          | some e =>
              by_cases h0 : r.status = 0
              · simp [h0]
              · simp [h0]
          | none =>
              exact ih d2 (fun p hp => hsub p (List.mem_cons_of_mem _ hp)) s

theorem paramsLoop_not_dup (nm : String) (fs : List (String × MAttribute)) (s : Int) :
    paramsLoop nm fs ≠ some (.dupStatus s) := by
  induction fs with
  | nil => rw [paramsLoop]; simp
  | cons p rest ih =>
      obtain ⟨n, att⟩ := p
      rw [paramsLoop]
      by_cases hn : n = ""
      · simp [hn]
      · rw [if_neg hn]
        cases ht : att.type with
        | none => simp
        | some t =>
            by_cases hk : isObjectKind t = true
            · simp [hk]
            · cases hav : attValidate att with
              | some e => simp [hk, hav]
              | none => simpa [hk, hav] using ih

theorem paramsValidate_not_dup (a : DAction) (s : Int) :
    paramsValidate a ≠ some (.dupStatus s) := by
  rw [paramsValidate]
  cases a.params with
  | none => simp
  | some p =>
      cases hp : p.type with
      | none => simp [hp]
      | some t =>
          cases t with
          | object fields => simpa [hp] using paramsLoop_not_dup a.name fields s
          | primitive k => simp [hp]
          | array e => simp [hp]
          | media i v => simp [hp]

/-- Claim C3 (amended): for an action with a nonempty name, at least one
route, and responses that individually validate (nonzero status, no
media type reference), two distinct responses with equal statuses make
`Validate` return a duplicate-status error; and whenever response
statuses are pairwise distinct, `Validate` never returns a
duplicate-status error (though earlier checks may preempt the duplicate
scan with a different error, as the counterexample shows). -/
theorem actionValidate_dup_status (d : DDesign) (a : DAction) :
    ((a.name ≠ "") → (a.routes ≠ []) →
      (∀ p ∈ a.responses, p.2.status ≠ 0 ∧ p.2.mediaType = "") →
      (∃ p ∈ a.responses, ∃ q ∈ a.responses, q.1 ≠ p.1 ∧ q.2.status = p.2.status) →
      ∃ s, (actionValidate d a).2 = some (.dupStatus s)) ∧
    ((∀ p ∈ a.responses, ∀ q ∈ a.responses, p.1 ≠ q.1 → p.2.status ≠ q.2.status) →
      ∀ s, (actionValidate d a).2 ≠ some (.dupStatus s)) := by
  constructor
  · intro hname hroutes hok hdup
    obtain ⟨s, hs⟩ := validateResponses_dup a.responses d a.responses hok hdup
    refine ⟨s, ?_⟩
    rw [actionValidate]
    rw [if_neg hname]
    rw [if_neg (by simpa using hroutes)]
    cases hvr : validateResponses a.responses d a.responses with
    | mk d2 err =>
        rw [hvr] at hs
        simp only at hs
        subst hs
        rfl
  · intro hdist s
    rw [actionValidate]
    by_cases hname : a.name = ""
    · simp [hname]
    · rw [if_neg hname]
      by_cases hroutes : a.routes.isEmpty = true
      · simp [hroutes]
      · rw [if_neg hroutes]
        have hnd := validateResponses_no_dup a.responses d a.responses (fun p hp => hp) hdist
        cases hvr : validateResponses a.responses d a.responses with
        | mk d2 err =>
            have hnd2 := hnd s
            rw [hvr] at hnd2
            simp only at hnd2
            cases err with
            | some e =>
                simp only
                intro hcontra
                apply hnd2
                rw [hcontra]
            | none =>
                simp only
                cases hpv : paramsValidate a with
                | some e =>
                    simp only [hpv]
                    intro hc
                    simp only [Option.some.injEq] at hc
                    exact paramsValidate_not_dup a s (by rw [hpv, hc])
                | none =>
                    cases hpl : a.payload with
                    | none => simp [hpv, hpl]
                    | some p =>
                        cases hav : attValidate p with
                        | some e => simp [hpv, hpl, hav]
                        | none => simp [hpv, hpl, hav]

/-- Witness for C3 at a concrete input: an otherwise well-formed action
with two distinct responses of status 200 gets a duplicate-status error
from `Validate`. -/
theorem actionValidate_dup_status_witness :
    ∃ s, (actionValidate (DDesign.mk [] [] [] [] [])
        (DAction.mk "show" [DRoute.mk "GET" "/:id"] none none
          [("r1", DResponse.mk "r1" 200 "" "" []), ("r2", DResponse.mk "r2" 200 "" "" [])])).2 =
      some (.dupStatus s) :=
  (actionValidate_dup_status (DDesign.mk [] [] [] [] [])
      (DAction.mk "show" [DRoute.mk "GET" "/:id"] none none
        [("r1", DResponse.mk "r1" 200 "" "" []), ("r2", DResponse.mk "r2" 200 "" "" [])])).1
    (by decide) (by simp) (by decide) (by decide)

/-- An attribute tree contains a missing required member: either this
attribute is an object with a `Required` validation naming an absent
member, or some nested object member attribute does (nesting through
object members, which is what `Validate` recurses into). -/
inductive MissingRequired : MAttribute → Prop where
  | here (a : MAttribute) (fs : List (String × MAttribute)) (names : List String) (n : String) :
      a.type = some (.object fs) → MValidation.required names ∈ a.validations →
      n ∈ names → (∀ p ∈ fs, p.1 ≠ n) → MissingRequired a
  | nested (a : MAttribute) (fs : List (String × MAttribute)) (p : String × MAttribute) :
      a.type = some (.object fs) → p ∈ fs → MissingRequired p.2 → MissingRequired a

theorem firstMissingName_isSome (fs : List (String × MAttribute)) (names : List String)
    (n : String) (hn : n ∈ names) (habs : ∀ p ∈ fs, p.1 ≠ n) :
    (firstMissingName fs names).isSome = true := by
  induction names with
  | nil => simp at hn
  | cons m ms ih =>
      rw [firstMissingName]
      by_cases hm : fs.any (fun p => p.1 = m) = true
      · rw [if_pos hm]
        rcases List.mem_cons.mp hn with rfl | htl
        · rw [List.any_eq_true] at hm
          obtain ⟨p, hp, hpm⟩ := hm
          simp only [decide_eq_true_eq] at hpm
          exact absurd hpm (habs p hp)
        · exact ih htl
      · rw [if_neg hm]
        rfl

theorem requiredCheck_some (fs : List (String × MAttribute)) (vs : List MValidation)
    (names : List String) (n : String) (hv : MValidation.required names ∈ vs)
    (hn : n ∈ names) (habs : ∀ p ∈ fs, p.1 ≠ n) :
    ∃ e, requiredCheck (some fs) vs = some e := by
  induction vs with
  | nil => simp at hv
  | cons v rest ih =>
      cases v with
      | required names2 =>
          rw [requiredCheck]
          cases hf : firstMissingName fs names2 with
          | some m => exact ⟨.requiredMissing m, rfl⟩
          | none =>
              rcases List.mem_cons.mp hv with heq | htl
              · cases heq
                have := firstMissingName_isSome fs names n hn habs
                rw [hf] at this
                simp at this
              · exact ih htl
      | other tag =>
          rw [requiredCheck]
          rcases List.mem_cons.mp hv with heq | htl
          · cases heq
          · exact ih htl

theorem fieldsValidate_some_of_mem (fs : List (String × MAttribute)) (p : String × MAttribute)
    (hp : p ∈ fs) (e : VErr) (he : attValidate p.2 = some e) :
    ∃ e2, fieldsValidate fs = some e2 := by
  induction fs with
  | nil => simp at hp
  | cons q rest ih =>
      obtain ⟨nm, att⟩ := q
      rw [fieldsValidate]
      cases ha : attValidate att with
      | some e3 => exact ⟨e3, rfl⟩
      | none =>
          rcases List.mem_cons.mp hp with heq | htl
          · rw [heq] at he
            simp only at he
            rw [ha] at he
            cases he
          · exact ih htl

/-- Claim C4: whenever an attribute tree contains — at any nesting depth
through object members — an object attribute with a `Required`
validation naming a member absent from that object, then
`AttributeDefinition.Validate` returns an error: the required-name check
runs at each node and `Validate` recurses into every nested object
member attribute. -/
theorem attValidate_required_missing (a : MAttribute) (h : MissingRequired a) :
    ∃ e, attValidate a = some e := by
  induction h with
  | here a fs names n hty hv hn habs =>
      obtain ⟨e, he⟩ := requiredCheck_some fs a.validations names n hv hn habs
      refine ⟨e, ?_⟩
      cases a with
      | mk t vs vw =>
          simp only [MAttribute.type] at hty
          subst hty
          simp only [MAttribute.validations] at he
          rw [attValidate]
          simp [objFields, he]
  | nested a fs p hty hp hmiss ih =>
      obtain ⟨e, he⟩ := ih
      cases a with
      | mk t vs vw =>
          simp only [MAttribute.type] at hty
          subst hty
          rw [attValidate]
          cases hrc : requiredCheck (objFields (some (.object fs))) vs with
          | some e2 => exact ⟨e2, by simp [hrc]⟩
          | none =>
              obtain ⟨e2, he2⟩ := fieldsValidate_some_of_mem fs p hp e he
              exact ⟨e2, by simp [hrc, he2]⟩

/-- Witness for C4 at a concrete input of nesting depth two: the inner
object requires member `x` which it does not declare; `Validate` on the
outer attribute reports an error. -/
theorem attValidate_required_missing_witness :
    ∃ e, attValidate
        (MAttribute.mk
          (some (.object
            [("inner", MAttribute.mk (some (.object [])) [.required ["x"]] "")])) [] "") =
      some e :=
  attValidate_required_missing _
    (MissingRequired.nested _
      [("inner", MAttribute.mk (some (.object [])) [.required ["x"]] "")]
      ("inner", MAttribute.mk (some (.object [])) [.required ["x"]] "")
      rfl (by simp)
      (MissingRequired.here _ [] ["x"] "x" rfl (by simp [MAttribute.validations]) (by simp)
        (by simp)))

/-- Fill a field left at its zero value: the merge primitive of the
spec's "outer definitions filling only fields the action's own response
left unset". -/
def fill {α : Type} [DecidableEq α] (unset : α) (x y : α) : α :=
  if x = unset then y else x

/-- Modelled from the spec: `ResponseDefinition.Merge` is not under the
provided sources; per §4.4 it merges field-by-field, the other
definition filling only the fields this response left unset (Go zero
values). -/
def respMerge (r other : DResponse) : DResponse :=
  { name := fill "" r.name other.name
    status := fill 0 r.status other.status
    description := fill "" r.description other.description
    mediaType := fill "" r.mediaType other.mediaType
    headers := fill [] r.headers other.headers }

/-- Modelled from the spec: `AttributeDefinition.Inherit` is not under
the provided sources; per §4.4 it merges the base type's attributes into
the derived type's object, the derived type's own attributes winning on
name collision. -/
def inherit (child parent : MAttribute) : MAttribute :=
  match child, parent with
  | .mk (some (.object cf)) vs vw, .mk (some (.object pf)) _ _ =>
      .mk (some (.object (cf ++ pf.filter (fun p => cf.all (fun c => c.1 != p.1))))) vs vw
  | c, _ => c

/-- `finalizeType` (`runner.go`): when a base type is declared, the
type's attribute inherits from `bat := ut.AttributeDefinition` — that
is, from itself. -/
def finalizeType (ut : DUserType) : DUserType :=
  if ut.hasBaseType then
    match ut.attr with
    | some a => { ut with attr := some (inherit a a) }
    | none => ut
  else ut

/-- `finalizeMediaType` (`runner.go`): the same self-inheritance on the
media type's attribute. -/
def finalizeMediaType (mt : MMediaType) : MMediaType :=
  if mt.hasBaseType then
    match mt.attr with
    | some a => { mt with attr := some (inherit a a) }
    | none => mt
  else mt

theorem inherit_self (a : MAttribute) : inherit a a = a := by
  cases a with
  | mk t vs vw =>
      cases t with
      | none => rfl
      | some dt =>
          cases dt with
          | primitive k => rfl
          | array e => rfl
          | media i v => rfl
          | object cf =>
              rw [inherit]
              have hfil : cf.filter (fun p => cf.all (fun c => c.1 != p.1)) = [] := by
                rw [List.filter_eq_nil_iff]
                intro p hp
                simp only [List.all_eq_true, bne_iff_ne, ne_eq, not_forall]
                exact ⟨p, hp, fun hne => hne rfl⟩
              rw [hfil, List.append_nil]

theorem finalizeType_id (ut : DUserType) : finalizeType ut = ut := by
  rw [finalizeType]
  cases h : ut.attr with
  | none => split <;> rfl
  | some a =>
      split
      · simp only [inherit_self, ← h]
      · rfl

theorem finalizeMediaType_id (mt : MMediaType) : finalizeMediaType mt = mt := by
  rw [finalizeMediaType]
  cases h : mt.attr with
  | none => split <;> rfl
  | some a =>
      split
      · simp only [inherit_self, ← h]
      · rfl

/-- The implicit parameter synthesized for a route wildcard:
`&AttributeDefinition{Type: String}` — string typed, no validations. -/
def stringAttr : MAttribute := .mk (some (.primitive .string)) [] ""

/-- Modelled from the spec: `RouteDefinition.FullPath` is not under the
provided sources; per the spec the full path prefixes the route path
with the resource base path (e.g. `/accounts/:accountID/bottles/:id`). -/
def routeFullPath (basePath : String) (r : DRoute) : String :=
  basePath ++ r.path

/-- One step of the wildcard loop of `finalizeResource`: nil params get a
fresh object; a wildcard already declared is left untouched; otherwise a
string parameter is added.  `none` is the Go panic of `o[wc] = …` on the
nil map obtained when the params type is not an object. -/
def addWildcard (ps : Option MAttribute) (wc : String) : Option (Option MAttribute) :=
  match ps with
  | none => some (some (.mk (some (.object [(wc, stringAttr)])) [] ""))
  | some p =>
      match p.type with
      | some (.object fs) =>
          if fs.any (fun q => q.1 == wc) then some (some p)
          else some (some (.mk (some (.object (fs ++ [(wc, stringAttr)]))) p.validations p.view))
      | _ => none

/-- The inner wildcard loop over one route's wildcards. -/
def foldWildcards : Option MAttribute → List String → Option (Option MAttribute)
  | ps, [] => some ps
  | ps, wc :: rest =>
      match addWildcard ps wc with
      | none => none
      | some ps2 => foldWildcards ps2 rest

/-- The outer loop of step 2 of `finalizeResource`, over the action's
routes. -/
def foldRoutes (basePath : String) : Option MAttribute → List DRoute → Option (Option MAttribute)
  | ps, [] => some ps
  | ps, r :: rest =>
      match foldWildcards ps (extractWildcards (routeFullPath basePath r)) with
      | none => none
      | some ps2 => foldRoutes basePath ps2 rest

/-- Merge with a registry entry when one is registered (`if pr, ok :=
…; ok { resp.Merge(pr) }`). -/
def mOpt (r : DResponse) (o : Option DResponse) : DResponse :=
  match o with
  | some x => respMerge r x
  | none => r

/-- Step 1 of `finalizeResource`: merge each action response with the
same-named resource-level, API-level and default responses, in that
order. -/
def mergeResponses (d : DDesign) (parentResponses : List (String × DResponse))
    (rs : List (String × DResponse)) : List (String × DResponse) :=
  rs.map (fun (p : String × DResponse) =>
    (p.1, mOpt (mOpt (mOpt p.2 (lookupA parentResponses p.1)) (lookupA d.responses p.1))
      (lookupA d.defaultResponses p.1)))

/-- The per-action body of `finalizeResource` (`runner.go`): merge
response definitions, then create implicit action parameters for the
path wildcards that have none. -/
def finalizeAction (d : DDesign) (res : DResource) (a : DAction) : Option DAction :=
  match foldRoutes res.basePath a.params a.routes with
  | none => none
  | some ps => some { a with responses := mergeResponses d res.responses a.responses, params := ps }

/-- `finalizeResource` (`runner.go`): apply the per-action body to every
action. -/
def finalizeResource (d : DDesign) (r : DResource) : Option DResource :=
  match r.actions.mapM (fun (p : String × DAction) =>
      match finalizeAction d r p.2 with
      | none => none
      | some a2 => some (p.1, a2)) with
  | none => none
  | some as2 => some { r with actions := as2 }

/-- The post-validation finalize pass of `RunDSL` (`runner.go`):
`finalizeType` on every user type, `finalizeMediaType` on every media
type, `finalizeResource` on every resource. -/
def finalizeAll (d : DDesign) : Option DDesign :=
  let d1 := { d with types := d.types.map (fun (p : String × DUserType) => (p.1, finalizeType p.2)) }
  let d2 :=
    { d1 with
      mediaTypes := d1.mediaTypes.map (fun (p : String × MMediaType) => (p.1, finalizeMediaType p.2)) }
  match d2.resources.mapM (fun (p : String × DResource) =>
      match finalizeResource d2 p.2 with
      | none => none
      | some r2 => some (p.1, r2)) with
  | none => none
  | some rs => some { d2 with resources := rs }

/-- Parameter lookup through an action's params attribute. -/
def paramLookup (ps : Option MAttribute) (w : String) : Option MAttribute :=
  match ps with
  | none => none
  | some p =>
      match p.type with
      | some (.object fs) => lookupA fs w
      | _ => none

theorem lookupA_append_single {α : Type} (fs : List (String × α)) (wc w : String) (x : α) :
    lookupA (fs ++ [(wc, x)]) w =
      match lookupA fs w with
      | some v => some v
      | none => if wc = w then some x else none := by
  induction fs with
  | nil => simp [lookupA]
  | cons q rest ih =>
      obtain ⟨k, v⟩ := q
      rw [List.cons_append, lookupA, lookupA]
      by_cases hk : k = w
      · simp [hk]
      · simp only [if_neg hk]
        exact ih

theorem lookupA_isSome_iff_any (fs : List (String × MAttribute)) (wc : String) :
    (fs.any (fun q => q.1 == wc) = true) ↔ (lookupA fs wc).isSome = true := by
  induction fs with
  | nil => simp [lookupA]
  | cons q rest ih =>
      obtain ⟨k, v⟩ := q
      rw [lookupA]
      by_cases hk : k = wc
      · simp [hk]
      · simp only [List.any_cons, if_neg hk]
        constructor
        · intro h
          rcases Bool.or_eq_true_iff.mp h with hh | ht
          · exact absurd (by simpa using hh) hk
          · exact ih.mp ht
        · intro h
          exact Bool.or_eq_true_iff.mpr (Or.inr (ih.mpr h))

/-- One `addWildcard` step changes a lookup only from absent to the
synthesized string attribute. -/
theorem addWildcard_lookup (ps ps' : Option MAttribute) (wc : String)
    (h : addWildcard ps wc = some ps') (w : String) :
    paramLookup ps' w = paramLookup ps w ∨
      (paramLookup ps w = none ∧ paramLookup ps' w = some stringAttr) := by
  cases ps with
  | none =>
      rw [addWildcard] at h
      cases h
      by_cases hw : wc = w
      · subst hw
        right
        constructor
        · rfl
        · simp [paramLookup, MAttribute.type, lookupA]
      · left
        simp [paramLookup, MAttribute.type, lookupA, hw]
  | some p =>
      rw [addWildcard] at h
      cases ht : p.type with
      | none => rw [ht] at h; cases h
      | some t =>
          cases t with
          | primitive k => rw [ht] at h; cases h
          | array e => rw [ht] at h; cases h
          | media i v => rw [ht] at h; cases h
          | object fs =>
              rw [ht] at h
              by_cases hany : fs.any (fun q => q.1 == wc) = true
              · simp only [if_pos hany] at h
                cases h
                left
                rfl
              · simp only [if_neg hany] at h
                cases h
                rw [paramLookup, paramLookup, ht]
                simp only [MAttribute.type]
                rw [lookupA_append_single]
                cases hlk : lookupA fs w with
                | some v => left; rfl
                | none =>
                    by_cases hw : wc = w
                    · right
                      exact ⟨rfl, by simp [hw]⟩
                    · left
                      simp [hw]

/-- After a successful `addWildcard`, the processed wildcard is
declared. -/
theorem addWildcard_mem (ps ps' : Option MAttribute) (wc : String)
    (h : addWildcard ps wc = some ps') :
    (paramLookup ps' wc).isSome = true := by
  cases ps with
  | none =>
      rw [addWildcard] at h
      cases h
      simp [paramLookup, MAttribute.type, lookupA]
  | some p =>
      rw [addWildcard] at h
      cases ht : p.type with
      | none => rw [ht] at h; cases h
      | some t =>
          cases t with
          | primitive k => rw [ht] at h; cases h
          | array e => rw [ht] at h; cases h
          | media i v => rw [ht] at h; cases h
          | object fs =>
              rw [ht] at h
              by_cases hany : fs.any (fun q => q.1 == wc) = true
              · simp only [if_pos hany] at h
                cases h
                rw [paramLookup, ht]
                exact (lookupA_isSome_iff_any fs wc).mp hany
              · simp only [if_neg hany] at h
                cases h
                rw [paramLookup]
                simp only [MAttribute.type]
                rw [lookupA_append_single]
                cases hlk : lookupA fs wc with
                | some v => rfl
                | none => simp

/-- The lookup-evolution relation maintained by the wildcard loops. -/
def wcEvolves (ps ps' : Option MAttribute) : Prop :=
  ∀ w, paramLookup ps' w = paramLookup ps w ∨
    (paramLookup ps w = none ∧ paramLookup ps' w = some stringAttr)

theorem wcEvolves_refl (ps : Option MAttribute) : wcEvolves ps ps := fun _ => Or.inl rfl

theorem wcEvolves_trans (a b c : Option MAttribute) (h1 : wcEvolves a b) (h2 : wcEvolves b c) :
    wcEvolves a c := by
  intro w
  rcases h2 w with he | ⟨hn, hs⟩
  · rcases h1 w with he1 | ⟨hn1, hs1⟩
    · exact Or.inl (he.trans he1)
    · exact Or.inr ⟨hn1, he.trans hs1⟩
  · rcases h1 w with he1 | ⟨hn1, hs1⟩
    · exact Or.inr ⟨he1 ▸ hn, hs⟩
    · rw [hs1] at hn
      cases hn

theorem wcEvolves_isSome (a b : Option MAttribute) (h : wcEvolves a b) (w : String)
    (hs : (paramLookup a w).isSome = true) : (paramLookup b w).isSome = true := by
  rcases h w with he | ⟨hn, _⟩
  · rw [he]; exact hs
  · rw [hn] at hs; cases hs

theorem foldWildcards_spec (wcs : List String) (ps ps' : Option MAttribute)
    (h : foldWildcards ps wcs = some ps') :
    wcEvolves ps ps' ∧ ∀ wc ∈ wcs, (paramLookup ps' wc).isSome = true := by
  induction wcs generalizing ps with
  | nil =>
      rw [foldWildcards] at h
      cases h
      exact ⟨wcEvolves_refl _, by simp⟩
  | cons wc rest ih =>
      rw [foldWildcards] at h
      cases ha : addWildcard ps wc with
      | none => rw [ha] at h; cases h
      | some ps2 =>
          rw [ha] at h
          obtain ⟨hev, hmem⟩ := ih ps2 h
          refine ⟨wcEvolves_trans ps ps2 ps' (addWildcard_lookup ps ps2 wc ha) hev, ?_⟩
          intro w hw
          rcases List.mem_cons.mp hw with rfl | htl
          · exact wcEvolves_isSome ps2 ps' hev w (addWildcard_mem ps ps2 w ha)
          · exact hmem w htl

theorem foldRoutes_spec (basePath : String) (routes : List DRoute) (ps ps' : Option MAttribute)
    (h : foldRoutes basePath ps routes = some ps') :
    wcEvolves ps ps' ∧
      ∀ r ∈ routes, ∀ wc ∈ extractWildcards (routeFullPath basePath r),
        (paramLookup ps' wc).isSome = true := by
  induction routes generalizing ps with
  | nil =>
      rw [foldRoutes] at h
      cases h
      exact ⟨wcEvolves_refl _, by simp⟩
  | cons r rest ih =>
      rw [foldRoutes] at h
      cases hf : foldWildcards ps (extractWildcards (routeFullPath basePath r)) with
      | none => rw [hf] at h; cases h
      | some ps2 =>
          rw [hf] at h
          obtain ⟨hev2, hmem2⟩ := ih ps2 h
          obtain ⟨hev1, hmem1⟩ := foldWildcards_spec _ ps ps2 hf
          refine ⟨wcEvolves_trans ps ps2 ps' hev1 hev2, ?_⟩
          intro rt hrt wc hwc
          rcases List.mem_cons.mp hrt with rfl | htl
          · exact wcEvolves_isSome ps2 ps' hev2 wc (hmem1 wc hwc)
          · exact hmem2 rt htl wc hwc

theorem mapM_option_zip {α β : Type} (f : α → Option β) (xs : List α) (ys : List β)
    (h : xs.mapM f = some ys) : ∀ q ∈ xs.zip ys, f q.1 = some q.2 := by
  induction xs generalizing ys with
  | nil =>
      simp only [List.mapM_nil, pure, Option.some.injEq] at h
      subst h
      simp
  | cons x rest ih =>
      rw [List.mapM_cons] at h
      cases hx : f x with
      | none => rw [hx] at h; cases h
      | some y =>
          rw [hx] at h
          cases hr : rest.mapM f with
          | none => rw [hr] at h; cases h
          | some ys2 =>
              rw [hr] at h
              simp at h
              subst h
              intro q hq
              rcases List.mem_cons.mp hq with rfl | htl
              · exact hx
              · exact ih ys2 hr q htl

/-- Claim C5: after `finalizeResource`, every wildcard of every route's
full path has a corresponding action parameter: a wildcard with no
declared parameter gets an implicit string-typed, validation-free
parameter, while a wildcard with a declared parameter keeps that
parameter untouched. -/
theorem finalizeResource_wildcards (d : DDesign) (r r' : DResource)
    (hf : finalizeResource d r = some r') :
    ∀ q ∈ r.actions.zip r'.actions,
      ∀ rt ∈ q.1.2.routes, ∀ wc ∈ extractWildcards (routeFullPath r.basePath rt),
        (paramLookup q.1.2.params wc = none → paramLookup q.2.2.params wc = some stringAttr) ∧
        (∀ att, paramLookup q.1.2.params wc = some att →
          paramLookup q.2.2.params wc = some att) := by
  rw [finalizeResource] at hf
  cases hm : r.actions.mapM (fun (p : String × DAction) =>
      match finalizeAction d r p.2 with
      | none => none
      | some a2 => some (p.1, a2)) with
  | none => rw [hm] at hf; cases hf
  | some as2 =>
      rw [hm] at hf
      cases hf
      intro q hq rt hrt wc hwc
      have hfq := mapM_option_zip _ r.actions as2 hm q hq
      cases hfa : finalizeAction d r q.1.2 with
      | none =>
          simp only [hfa] at hfq
          exact Option.noConfusion hfq
      | some a2 =>
          simp only [hfa, Option.some.injEq] at hfq
          rw [finalizeAction] at hfa
          cases hfr : foldRoutes r.basePath q.1.2.params q.1.2.routes with
          | none => rw [hfr] at hfa; cases hfa
          | some ps' =>
              rw [hfr] at hfa
              simp only [Option.some.injEq] at hfa
              obtain ⟨hev, hmem⟩ := foldRoutes_spec r.basePath q.1.2.routes q.1.2.params ps' hfr
              have hps : q.2.2.params = ps' := by rw [← hfq, ← hfa]
              rw [hps]
              have hsome := hmem rt hrt wc hwc
              constructor
              · intro hnone
                rcases hev wc with he | ⟨_, hs⟩
                · rw [he, hnone] at hsome
                  cases hsome
                · exact hs
              · intro att hatt
                rcases hev wc with he | ⟨hn, _⟩
                · rw [he, hatt]
                · rw [hatt] at hn
                  cases hn

/-- Witness for C5 on the spec's scenario: route
`/accounts/:accountID/bottles/:id` with no declared parameters; after
`finalizeResource` both wildcards have implicit string parameters. -/
theorem finalizeResource_wildcards_witness :
    paramLookup (some (MAttribute.mk
        (some (.object [("accountID", stringAttr), ("id", stringAttr)])) [] "")) "accountID" =
      some stringAttr := by
  have h := finalizeResource_wildcards (DDesign.mk [] [] [] [] [])
    (DResource.mk "bottles" "" "" "/accounts/:accountID" none ""
      [("show", DAction.mk "show" [DRoute.mk "GET" "/bottles/:id"] none none [])] [])
    (DResource.mk "bottles" "" "" "/accounts/:accountID" none ""
      [("show", DAction.mk "show" [DRoute.mk "GET" "/bottles/:id"]
        (some (MAttribute.mk
          (some (.object [("accountID", stringAttr), ("id", stringAttr)])) [] "")) none [])] [])
    rfl
  have h2 := h (("show", DAction.mk "show" [DRoute.mk "GET" "/bottles/:id"] none none []),
      ("show", DAction.mk "show" [DRoute.mk "GET" "/bottles/:id"]
        (some (MAttribute.mk
          (some (.object [("accountID", stringAttr), ("id", stringAttr)])) [] "")) none []))
    (List.mem_singleton.mpr rfl)
    (DRoute.mk "GET" "/bottles/:id") (List.mem_singleton.mpr rfl)
    "accountID" (by decide)
  exact h2.1 rfl

theorem fill_unset_right {α : Type} [DecidableEq α] (u x : α) : fill u x u = x := by
  unfold fill
  split <;> simp_all

theorem fill_eq_unset {α : Type} [DecidableEq α] (u x y : α) :
    fill u x y = u ↔ x = u ∧ y = u := by
  unfold fill
  split <;> simp_all

theorem fill_absorb {α : Type} [DecidableEq α] (u x y : α) (h : x = u → y = u) :
    fill u x y = x := by
  unfold fill
  split
  · rename_i hx
    rw [h hx, hx]
  · rfl

theorem fill3_idem {α : Type} [DecidableEq α] (u P A D x : α) :
    fill u (fill u (fill u (fill u (fill u (fill u x P) A) D) P) A) D =
      fill u (fill u (fill u x P) A) D := by
  set X := fill u (fill u (fill u x P) A) D with hX
  have hXu : X = u → (x = u ∧ P = u) ∧ A = u ∧ D = u := by
    intro h
    rw [hX, fill_eq_unset, fill_eq_unset, fill_eq_unset] at h
    exact ⟨⟨h.1.1.1, h.1.1.2⟩, h.1.2, h.2⟩
  rw [fill_absorb u X P (fun h => (hXu h).1.2)]
  rw [fill_absorb u X A (fun h => (hXu h).2.1)]
  exact fill_absorb u X D (fun h => (hXu h).2.2)

/-- The name carried by an optional merge source (zero value when
absent). -/
def oName (o : Option DResponse) : String := match o with | some x => x.name | none => ""

/-- Status of an optional merge source. -/
def oStatus (o : Option DResponse) : Int := match o with | some x => x.status | none => 0

/-- Description of an optional merge source. -/
def oDescription (o : Option DResponse) : String :=
  match o with | some x => x.description | none => ""

/-- Media type of an optional merge source. -/
def oMediaType (o : Option DResponse) : String :=
  match o with | some x => x.mediaType | none => ""

/-- Headers of an optional merge source. -/
def oHeaders (o : Option DResponse) : List (String × String) :=
  match o with | some x => x.headers | none => []

theorem mOpt_eq (r : DResponse) (o : Option DResponse) :
    mOpt r o = DResponse.mk (fill "" r.name (oName o)) (fill 0 r.status (oStatus o))
      (fill "" r.description (oDescription o)) (fill "" r.mediaType (oMediaType o))
      (fill [] r.headers (oHeaders o)) := by
  cases o with
  | some x => rfl
  | none =>
      cases r
      simp [mOpt, oName, oStatus, oDescription, oMediaType, oHeaders, fill_unset_right]

theorem mOpt3_idem (P A D : Option DResponse) (r : DResponse) :
    mOpt (mOpt (mOpt (mOpt (mOpt (mOpt r P) A) D) P) A) D =
      mOpt (mOpt (mOpt r P) A) D := by
  simp only [mOpt_eq]
  simp only [DResponse.mk.injEq]
  exact ⟨fill3_idem _ _ _ _ _, fill3_idem _ _ _ _ _, fill3_idem _ _ _ _ _,
    fill3_idem _ _ _ _ _, fill3_idem _ _ _ _ _⟩

theorem mergeResponses_idem (d d' : DDesign) (pr pr' : List (String × DResponse))
    (hpr : pr' = pr) (hre : d'.responses = d.responses)
    (hdr : d'.defaultResponses = d.defaultResponses) (rs : List (String × DResponse)) :
    mergeResponses d' pr' (mergeResponses d pr rs) = mergeResponses d pr rs := by
  subst hpr
  rw [mergeResponses, mergeResponses, List.map_map]
  apply List.map_congr_left
  intro p hp
  simp [Function.comp, hre, hdr, mOpt3_idem]

theorem addWildcard_present (ps : Option MAttribute) (wc : String)
    (h : (paramLookup ps wc).isSome = true) : addWildcard ps wc = some ps := by
  cases ps with
  | none => simp [paramLookup] at h
  | some p =>
      rw [paramLookup] at h
      rw [addWildcard]
      cases ht : p.type with
      | none => rw [ht] at h; simp at h
      | some t =>
          cases t with
          | primitive k => rw [ht] at h; simp at h
          | array e => rw [ht] at h; simp at h
          | media i v => rw [ht] at h; simp at h
          | object fs =>
              rw [ht] at h
              have hany := (lookupA_isSome_iff_any fs wc).mpr h
              simp [hany]

theorem foldWildcards_present (ps : Option MAttribute) (wcs : List String)
    (h : ∀ wc ∈ wcs, (paramLookup ps wc).isSome = true) :
    foldWildcards ps wcs = some ps := by
  induction wcs with
  | nil => rfl
  | cons wc rest ih =>
      rw [foldWildcards, addWildcard_present ps wc (h wc (by simp))]
      exact ih (fun w hw => h w (List.mem_cons_of_mem _ hw))

theorem foldRoutes_present (basePath : String) (ps : Option MAttribute) (routes : List DRoute)
    (h : ∀ r ∈ routes, ∀ wc ∈ extractWildcards (routeFullPath basePath r),
      (paramLookup ps wc).isSome = true) :
    foldRoutes basePath ps routes = some ps := by
  induction routes with
  | nil => rfl
  | cons r rest ih =>
      rw [foldRoutes, foldWildcards_present ps _ (h r (by simp))]
      exact ih (fun rt hrt wc hwc => h rt (List.mem_cons_of_mem _ hrt) wc hwc)

theorem foldRoutes_idem (basePath : String) (ps ps' : Option MAttribute) (routes : List DRoute)
    (h : foldRoutes basePath ps routes = some ps') :
    foldRoutes basePath ps' routes = some ps' := by
  obtain ⟨_, hmem⟩ := foldRoutes_spec basePath routes ps ps' h
  exact foldRoutes_present basePath ps' routes hmem

theorem mapM_id_of {α : Type} (f : α → Option α) (xs : List α) (h : ∀ x ∈ xs, f x = some x) :
    xs.mapM f = some xs := by
  induction xs with
  | nil => rfl
  | cons x rest ih =>
      rw [List.mapM_cons, h x (by simp), ih (fun y hy => h y (List.mem_cons_of_mem _ hy))]
      rfl

theorem finalizeAction_idem (d d' : DDesign) (res res' : DResource)
    (hbp : res'.basePath = res.basePath) (hresp : res'.responses = res.responses)
    (hdre : d'.responses = d.responses) (hdd : d'.defaultResponses = d.defaultResponses)
    (a a2 : DAction) (h : finalizeAction d res a = some a2) :
    finalizeAction d' res' a2 = some a2 := by
  rw [finalizeAction] at h
  cases hfr : foldRoutes res.basePath a.params a.routes with
  | none => rw [hfr] at h; cases h
  | some ps' =>
      rw [hfr] at h
      simp only [Option.some.injEq] at h
      subst h
      rw [finalizeAction]
      simp only [hbp]
      rw [foldRoutes_idem res.basePath a.params ps' a.routes hfr]
      simp only [Option.some.injEq]
      rw [mergeResponses_idem d d' res.responses res'.responses hresp hdre hdd]

theorem mapM_option_length {α β : Type} (f : α → Option β) (xs : List α) (ys : List β)
    (h : xs.mapM f = some ys) : xs.length = ys.length := by
  induction xs generalizing ys with
  | nil =>
      simp only [List.mapM_nil, pure, Option.some.injEq] at h
      subst h
      rfl
  | cons x rest ih =>
      rw [List.mapM_cons] at h
      cases hx : f x with
      | none => rw [hx] at h; cases h
      | some y =>
          rw [hx] at h
          cases hr : rest.mapM f with
          | none => rw [hr] at h; cases h
          | some ys2 =>
              rw [hr] at h
              simp at h
              subst h
              simp [ih ys2 hr]

theorem mem_zip_of_mem_right {α β : Type} (xs : List α) (ys : List β)
    (hlen : xs.length = ys.length) (y : β) (hy : y ∈ ys) : ∃ x, (x, y) ∈ xs.zip ys := by
  induction xs generalizing ys with
  | nil =>
      cases ys with
      | nil => simp at hy
      | cons b bs => simp at hlen
  | cons a as ih =>
      cases ys with
      | nil => simp at hy
      | cons b bs =>
          rcases List.mem_cons.mp hy with rfl | htl
          · exact ⟨a, by simp⟩
          · obtain ⟨x, hx⟩ := ih bs (by simpa using hlen) htl
            exact ⟨x, List.mem_cons_of_mem _ hx⟩

theorem finalizeResource_idem (d d' : DDesign)
    (hdre : d'.responses = d.responses) (hdd : d'.defaultResponses = d.defaultResponses)
    (r r2 : DResource) (h : finalizeResource d r = some r2) :
    finalizeResource d' r2 = some r2 := by
  rw [finalizeResource] at h
  cases hm : r.actions.mapM (fun (p : String × DAction) =>
      match finalizeAction d r p.2 with
      | none => none
      | some a2 => some (p.1, a2)) with
  | none => rw [hm] at h; cases h
  | some as2 =>
      rw [hm] at h
      simp only [Option.some.injEq] at h
      subst h
      rw [finalizeResource]
      have hz := mapM_option_zip _ r.actions as2 hm
      have hlen := mapM_option_length _ r.actions as2 hm
      have hall : ∀ p ∈ as2, (match finalizeAction d' { r with actions := as2 } p.2 with
          | none => none
          | some a2 => some (p.1, a2) : Option (String × DAction)) = some p := by
        intro p hp
        obtain ⟨x, hx⟩ := mem_zip_of_mem_right r.actions as2 hlen p hp
        have hfx := hz (x, p) hx
        cases hfa : finalizeAction d r x.2 with
        | none =>
            simp only [hfa] at hfx
            exact Option.noConfusion hfx
        | some a2 =>
            simp only [hfa, Option.some.injEq] at hfx
            have hp2 : p.2 = a2 := by rw [← hfx]
            have hidem := finalizeAction_idem d d' r { r with actions := as2 } rfl rfl hdre hdd
              x.2 p.2 (by rw [hp2]; exact hfa)
            simp only [hidem]
      rw [mapM_id_of _ as2 hall]

theorem mapTypes_id (l : List (String × DUserType)) :
    l.map (fun (p : String × DUserType) => (p.1, finalizeType p.2)) = l := by
  induction l with
  | nil => rfl
  | cons p rest ih => simp [finalizeType_id, ih]

theorem mapMediaTypes_id (l : List (String × MMediaType)) :
    l.map (fun (p : String × MMediaType) => (p.1, finalizeMediaType p.2)) = l := by
  induction l with
  | nil => rfl
  | cons p rest ih => simp [finalizeMediaType_id, ih]

theorem finalizeAll_shape (d : DDesign) :
    finalizeAll d =
      match d.resources.mapM (fun (p : String × DResource) =>
          match finalizeResource d p.2 with
          | none => none
          | some r2 => some (p.1, r2)) with
      | none => none
      | some rs => some { d with resources := rs } := by
  rw [finalizeAll]
  simp only [mapTypes_id, mapMediaTypes_id]

/-- Claim C6: the finalize pass is idempotent.  Running `finalizeType`,
`finalizeMediaType` and `finalizeResource` a second time on an
already-finalized design changes nothing: the (self-)inheritance merges
are no-ops, every response field filled by the first merge absorbs the
second, and every route wildcard already has its parameter so no new
implicit parameter is created. -/
theorem finalizeAll_idem (d d2 : DDesign) (h : finalizeAll d = some d2) :
    finalizeAll d2 = some d2 := by
  rw [finalizeAll_shape] at h
  cases hm : d.resources.mapM (fun (p : String × DResource) =>
      match finalizeResource d p.2 with
      | none => none
      | some r2 => some (p.1, r2)) with
  | none => rw [hm] at h; cases h
  | some rs =>
      rw [hm] at h
      simp only [Option.some.injEq] at h
      subst h
      rw [finalizeAll_shape]
      have hz := mapM_option_zip _ d.resources rs hm
      have hlen := mapM_option_length _ d.resources rs hm
      have hall : ∀ p ∈ rs, (match finalizeResource { d with resources := rs } p.2 with
          | none => none
          | some r2 => some (p.1, r2) : Option (String × DResource)) = some p := by
        intro p hp
        obtain ⟨x, hx⟩ := mem_zip_of_mem_right d.resources rs hlen p hp
        have hfx := hz (x, p) hx
        cases hfr : finalizeResource d x.2 with
        | none =>
            simp only [hfr] at hfx
            exact Option.noConfusion hfx
        | some r2 =>
            simp only [hfr, Option.some.injEq] at hfx
            have hp2 : p.2 = r2 := by rw [← hfx]
            have hidem := finalizeResource_idem d { d with resources := rs } rfl rfl
              x.2 p.2 (by rw [hp2]; exact hfr)
            simp only [hidem]
      rw [mapM_id_of _ rs hall]

/-- Witness for C6: finalizing the one-resource design of the C5
scenario once produces a fixed point of `finalizeAll`. -/
theorem finalizeAll_idem_witness :
    finalizeAll (DDesign.mk
      [("bottles", DResource.mk "bottles" "" "" "/accounts/:accountID" none ""
        [("show", DAction.mk "show" [DRoute.mk "GET" "/bottles/:id"]
          (some (MAttribute.mk
            (some (.object [("accountID", stringAttr), ("id", stringAttr)])) [] "")) none [])] [])]
      [("m", MMediaType.mk "m" "application/json" none ["default"]
        (some (MAttribute.mk (some (.object [("a", stringAttr)])) [] "")) true)]
      [("t", DUserType.mk "t" (some (MAttribute.mk (some (.object [])) [] "")) true)]
      [] []) =
    some (DDesign.mk
      [("bottles", DResource.mk "bottles" "" "" "/accounts/:accountID" none ""
        [("show", DAction.mk "show" [DRoute.mk "GET" "/bottles/:id"]
          (some (MAttribute.mk
            (some (.object [("accountID", stringAttr), ("id", stringAttr)])) [] "")) none [])] [])]
      [("m", MMediaType.mk "m" "application/json" none ["default"]
        (some (MAttribute.mk (some (.object [("a", stringAttr)])) [] "")) true)]
      [("t", DUserType.mk "t" (some (MAttribute.mk (some (.object [])) [] "")) true)]
      [] []) :=
  finalizeAll_idem
    (DDesign.mk
      [("bottles", DResource.mk "bottles" "" "" "/accounts/:accountID" none ""
        [("show", DAction.mk "show" [DRoute.mk "GET" "/bottles/:id"] none none [])] [])]
      [("m", MMediaType.mk "m" "application/json" none ["default"]
        (some (MAttribute.mk (some (.object [("a", stringAttr)])) [] "")) true)]
      [("t", DUserType.mk "t" (some (MAttribute.mk (some (.object [])) [] "")) true)]
      [] [])
    _ rfl

/-- A recorded DSL error (`Error` in `runner.go`): the Go error message
with the source location heuristic's file and line. -/
structure DslError where
  goError : String
  file : String
  line : Nat
deriving DecidableEq

/-- A `DSLDefinition` on the evaluation context stack, identified by its
definition kind. -/
inductive DslCtx where
  | api | resource | action | attribute | response | mediaType | userType
deriving DecidableEq

/-- The mutable globals of the DSL engine: the context stack `ctxStack`
and the error list `Errors`. -/
structure DslState where
  stack : List DslCtx
  errors : List DslError
deriving DecidableEq

/-- `contextStack.current` (`runner.go`): the top of the stack, nil when
empty. -/
def ctxCurrent (s : List DslCtx) : Option DslCtx :=
  if s.isEmpty then none else s.getLast?

/-- `executeDSL` (`runner.go`): a nil DSL succeeds immediately; otherwise
push the context, run the body against the globals, pop, and report
success iff no error was appended. -/
def executeDSL (dsl : Option (DslState → DslState)) (ctx : DslCtx) (s : DslState) :
    Bool × DslState :=
  match dsl with
  | none => (true, s)
  | some body =>
      let initCount := s.errors.length
      let s1 := body { s with stack := s.stack ++ [ctx] }
      let s2 := { s1 with stack := s1.stack.dropLast }
      (decide (s2.errors.length ≤ initCount), s2)

/-- Outcome of `RunDSL`. -/
inductive RunOutcome where
  | ok (d : DDesign)
  | validationFailed (e : VErr)
  | dslFailed (errs : List DslError)
  | crashed
  | noDesign

/-- `RunDSL` (`runner.go`): with no design registered return nil;
otherwise run the DSL phases (API body, user types, media types,
resources — here a single state transformer producing the raw tree and
the recorded errors), then `Design.Validate()`, halting on its error,
then halting on recorded DSL errors, and only then the finalize pass.
The boolean records whether the finalize pass was entered. -/
def runDSL (init : Option (DDesign × (DDesign → DDesign × List DslError))) :
    RunOutcome × Bool :=
  match init with
  | none => (.noDesign, false)
  | some (d0, phases) =>
      let (d1, errs) := phases d0
      match apiValidate d1 with
      | (_, some e) => (.validationFailed e, false)
      | (d2, none) =>
          if errs.isEmpty then
            match finalizeAll d2 with
            | some d3 => (.ok d3, true)
            | none => (.crashed, true)
          else (.dslFailed errs, false)

/-- Claim C9: `RunDSL` halts before the finalize pass whenever the
Validate pass fails or DSL errors were recorded: it returns that error
and the finalize functions are never invoked; conversely the finalize
pass is entered only when Validate accepted the tree and no DSL error
was recorded. -/
theorem runDSL_halts_before_finalize (d0 : DDesign)
    (phases : DDesign → DDesign × List DslError) :
    (∀ e, (apiValidate (phases d0).1).2 = some e →
      runDSL (some (d0, phases)) = (.validationFailed e, false)) ∧
    ((apiValidate (phases d0).1).2 = none → (phases d0).2 ≠ [] →
      runDSL (some (d0, phases)) = (.dslFailed (phases d0).2, false)) ∧
    ((runDSL (some (d0, phases))).2 = true →
      (apiValidate (phases d0).1).2 = none ∧ (phases d0).2 = []) := by
  rw [runDSL]
  cases hp : phases d0 with
  | mk d1 errs =>
      cases hv : apiValidate d1 with
      | mk d2 verr =>
          cases verr with
          | some e =>
              refine ⟨?_, ?_, ?_⟩
              · intro e2 he2
                simp only at he2
                cases he2
                simp [hv]
              · intro hnone
                simp at hnone
              · intro hfin
                simp [hv] at hfin
          | none =>
              by_cases herr : errs.isEmpty = true
              · refine ⟨?_, ?_, ?_⟩
                · intro e2 he2
                  simp at he2
                · intro _ hne
                  simp only at hne
                  exact absurd (List.isEmpty_iff.mp herr) hne
                · intro _
                  exact ⟨rfl, List.isEmpty_iff.mp herr⟩
              · refine ⟨?_, ?_, ?_⟩
                · intro e2 he2
                  simp at he2
                · intro _ _
                  simp [hv, herr]
                · intro hfin
                  simp [hv, herr] at hfin

/-- Witness for C9: a design whose only resource has an empty name fails
Validate, and `RunDSL` returns the validation error with the finalize
flag false. -/
theorem runDSL_halts_before_finalize_witness :
    runDSL (some (DDesign.mk [("x", DResource.mk "" "" "" "" none "" [] [])] [] [] [] [],
        fun d => (d, []))) =
      (.validationFailed (.resourceErr "" .emptyResourceName), false) :=
  (runDSL_halts_before_finalize
      (DDesign.mk [("x", DResource.mk "" "" "" "" none "" [] [])] [] [] [] [])
      (fun d => (d, []))).1
    (.resourceErr "" .emptyResourceName) rfl

/-- Claim C10: `executeDSL` preserves the context stack — it pushes
exactly one context (visible as the current context while the body
runs), runs the body even when errors are already recorded, and pops, so
the stack after the call equals the stack before; it returns `true`
exactly when the body appended no new entries to the error list. -/
theorem executeDSL_stack_discipline (body : DslState → DslState) (ctx : DslCtx) (s : DslState)
    (hstack : ∀ t, (body t).stack = t.stack)
    (happend : ∀ t, ∃ new, (body t).errors = t.errors ++ new) :
    (executeDSL (some body) ctx s).2.stack = s.stack ∧
    (executeDSL (some body) ctx s).2.errors =
      (body { s with stack := s.stack ++ [ctx] }).errors ∧
    ctxCurrent (s.stack ++ [ctx]) = some ctx ∧
    ((executeDSL (some body) ctx s).1 = true ↔
      (body { s with stack := s.stack ++ [ctx] }).errors = s.errors) := by
  obtain ⟨new, hnew⟩ := happend { s with stack := s.stack ++ [ctx] }
  refine ⟨?_, rfl, ?_, ?_⟩
  · rw [executeDSL]
    simp [hstack]
  · simp [ctxCurrent]
  · rw [executeDSL]
    simp only [hnew, List.length_append, decide_eq_true_eq]
    constructor
    · intro h
      have hn : new = [] := List.length_eq_zero.mp (by omega)
      simp [hn]
    · intro h
      have hlen := congrArg List.length h
      simp only [List.length_append] at hlen
      omega

/-- Witness for C10: a body that appends one error runs against the
pushed context, the stack is restored, and `executeDSL` reports
failure. -/
theorem executeDSL_stack_discipline_witness :
    (executeDSL (some (fun t => { t with
        errors := t.errors ++ [DslError.mk "invalid use of Params" "design.go" 3] }))
      DslCtx.resource (DslState.mk [DslCtx.api] [])).2.stack = [DslCtx.api] :=
  (executeDSL_stack_discipline
      (fun t => { t with
        errors := t.errors ++ [DslError.mk "invalid use of Params" "design.go" 3] })
      DslCtx.resource (DslState.mk [DslCtx.api] [])
      (fun _ => rfl)
      (fun _ => ⟨[DslError.mk "invalid use of Params" "design.go" 3], rfl⟩)).1
